import Mathlib

/-!
A verification development for the staged-log store, deduplication engine,
batch cursor and retry executor of the `smart_feeds` repository
(`src/tools/storage.py`, `src/tools/dedup.py`, `src/retry_utils.py`,
`src/config.py`).

Python strings are modelled as `List Char`; files are modelled as
`Option (List Char)` (absent vs. present content) or, for the line-oriented
seen-URL index, as `List (List Char)` of lines.  Fallible operations return
`Except`.  The two helpers of `storage.py` that call into the external
`html2text` library (`h.handle` inside `_clean_title` and
`_clean_html_to_markdown`) are taken as function parameters, since that
library is not part of this repository; everything the repository itself
does around those calls is modelled faithfully.
-/

/-- Convenience: the character list of a string literal. -/
def str (s : String) : List Char := s.toList

/-- The whitespace characters recognised by Python's `str.strip()` / regex
`\s` for ASCII text: space, tab, newline, carriage return, vertical tab,
form feed. -/
def pyIsSpace (c : Char) : Bool :=
  c = ' ' || c = '\t' || c = '\n' || c = '\r' || c = '\x0b' || c = '\x0c'

/-- Python `s.strip()`: drop leading and trailing whitespace. -/
def pyStrip (l : List Char) : List Char :=
  ((l.dropWhile pyIsSpace).reverse.dropWhile pyIsSpace).reverse

/-- Python `url.rstrip("/")` from `_append_to_log`: drop every trailing
slash (not just one). -/
def rstripSlash (l : List Char) : List Char :=
  (l.reverse.dropWhile (fun c => c = '/')).reverse

/-- Python `needle in haystack` substring test (used by
`is_retryable_error` on the error's textual representation). -/
def containsSubstring (p : List Char) : List Char → Bool
  | [] => p.isPrefixOf []
  | c :: rest => p.isPrefixOf (c :: rest) || containsSubstring p rest

/- ## Retry executor (`src/retry_utils.py`) -/

/-- `is_retryable_error`: true iff the error text contains `"429"`,
`"RESOURCE_EXHAUSTED"` or `"Resource exhausted"`. -/
def is_retryable_error (e : List Char) : Bool :=
  containsSubstring (str "429") e ||
  containsSubstring (str "RESOURCE_EXHAUSTED") e ||
  containsSubstring (str "Resource exhausted") e

/-- Observable outcome of one `run_with_retry` / `run_with_retry_sync`
execution: the propagated result, how many times the wrapped operation was
invoked, and the sequence of back-off delays slept (in seconds, exactly
representable as rationals: the Python floats are only ever multiplied by
powers of two). -/
structure RetryTrace (A : Type) where
  result : Except (List Char) A
  calls : Nat
  delays : List ℚ

/-- The retry loop of `run_with_retry` / `run_with_retry_sync`.
`op i` is the outcome of the `i`-th invocation (0-indexed) of the wrapped
function; `attempt` is the number of failed attempts so far, exactly the
`attempt` counter of the Python loop at the head of the iteration, and
`fuel = max_retries - attempt`, so that the Python guard
`attempt + 1 > max_retries` (tested after `attempt += 1`) holds exactly
when `fuel = 0`.  On a retryable failure with retries left the loop sleeps
`initial_delay * 2 ^ attempt` seconds (the Python
`initial_delay * 2 ** (attempt - 1)` for the new attempt counter) and
retries; otherwise the last error is re-raised. -/
def retryGo (op : Nat → Except (List Char) A) (initial_delay : ℚ) :
    Nat → Nat → RetryTrace A
  | attempt, fuel =>
    match op attempt with
    | .ok a => ⟨.ok a, attempt + 1, []⟩
    | .error e =>
      if is_retryable_error e = false then ⟨.error e, attempt + 1, []⟩
      else
        match fuel with
        | 0 => ⟨.error e, attempt + 1, []⟩
        | fuel + 1 =>
          let t := retryGo op initial_delay (attempt + 1) fuel
          ⟨t.result, t.calls, (initial_delay * 2 ^ attempt) :: t.delays⟩

/-- `run_with_retry_sync(func, max_retries=…, initial_delay=…)`. -/
def run_with_retry_sync (op : Nat → Except (List Char) A)
    (max_retries : Nat) (initial_delay : ℚ) : RetryTrace A :=
  retryGo op initial_delay 0 max_retries

/-- `run_with_retry`: the `async` variant; its loop body is identical to
`run_with_retry_sync` (only `asyncio.sleep` replaces `time.sleep`, which is
invisible in this model). -/
def run_with_retry (op : Nat → Except (List Char) A)
    (max_retries : Nat) (initial_delay : ℚ) : RetryTrace A :=
  retryGo op initial_delay 0 max_retries

/-- Default values of the keyword parameters `max_retries` and
`initial_delay` in the signatures of both `run_with_retry` and
`run_with_retry_sync`. -/
def retry_signature_defaults : Nat × ℚ := (5, 2)

/-- `config.get_retry_max_attempts()`: `int(os.getenv("RETRY_MAX_ATTEMPTS", "8"))`,
with the parsed environment value as an optional argument. -/
def get_retry_max_attempts (env : Option Nat) : Nat := env.getD 8

/-- `config.get_retry_delay_seconds()`: `float(os.getenv("RETRY_DELAY_SECONDS", "5.0"))`. -/
def get_retry_delay_seconds (env : Option ℚ) : ℚ := env.getD 5

/- ## Seen-URL hash index (`src/tools/dedup.py`) -/

/-- The `MAX_LINES` cap of `_append_hashes`. -/
def MAX_LINES : Nat := 100000

/-- `_append_hashes`: append the new hashes as lines at the end of
`seen_urls.txt`, then, if the line count exceeds `MAX_LINES`, rewrite the
file keeping only the last `MAX_LINES` lines (`lines[-MAX_LINES:]`).
The file is modelled as its list of lines. -/
def _append_hashes (fileLines : List (List Char)) (hashes : List (List Char)) :
    List (List Char) :=
  let lines := fileLines ++ hashes
  if lines.length > MAX_LINES then lines.drop (lines.length - MAX_LINES)
  else lines

/- ## Observation helpers for the retry loop -/

/-- An invocation outcome that is a retryable failure. -/
def retryableFailure : Except (List Char) A → Bool
  | .error e => is_retryable_error e
  | .ok _ => false

/-- An invocation outcome that is a non-retryable failure. -/
def nonRetryableFailure : Except (List Char) A → Bool
  | .error e => !is_retryable_error e
  | .ok _ => false

/-- The error text of a failed outcome (junk on success). -/
def errText : Except (List Char) A → List Char
  | .error e => e
  | .ok _ => []

theorem retryGo_calls_ge (op : Nat → Except (List Char) A) (d : ℚ)
    (f : Nat) : ∀ a, a + 1 ≤ (retryGo op d a f).calls := by
  induction f with
  | zero =>
    intro a
    rw [retryGo]
    cases h : op a with
    | ok v => simp
    | error e => simp only; split <;> simp
  | succ f ih =>
    intro a
    rw [retryGo]
    cases h : op a with
    | ok v => simp
    | error e =>
      simp only
      split
      · simp
      · have := ih (a + 1)
        simp only [RetryTrace.calls]
        omega

theorem retryGo_delays (op : Nat → Except (List Char) A) (d : ℚ)
    (f : Nat) : ∀ a,
    (retryGo op d a f).delays =
      (List.range ((retryGo op d a f).calls - (a + 1))).map
        (fun k => d * 2 ^ (a + k)) := by
  induction f with
  | zero =>
    intro a
    rw [retryGo]
    cases h : op a with
    | ok v => simp
    | error e => simp only; split <;> simp
  | succ f ih =>
    intro a
    rw [retryGo]
    cases h : op a with
    | ok v => simp
    | error e =>
      simp only
      split
      · simp
      · have hge := retryGo_calls_ge op d f (a + 1)
        simp only [RetryTrace.delays, RetryTrace.calls]
        rw [ih (a + 1)]
        have hn : (retryGo op d (a + 1) f).calls - (a + 1) =
            ((retryGo op d (a + 1) f).calls - (a + 1 + 1)) + 1 := by omega
        rw [hn, List.range_succ_eq_map]
        simp only [List.map_cons, List.map_map]
        refine List.cons_eq_cons.mpr ⟨by ring_nf, ?_⟩
        apply List.map_congr_left
        intro k _
        simp only [Function.comp_apply, Nat.succ_eq_add_one]
        ring_nf

theorem retryGo_ok (op : Nat → Except (List Char) A) (d : ℚ)
    (a f : Nat) (v : A) (h : op a = .ok v) :
    retryGo op d a f = ⟨.ok v, a + 1, []⟩ := by
  rw [retryGo, h]

theorem retryGo_stop_fatal (op : Nat → Except (List Char) A) (d : ℚ)
    (a f : Nat) (e : List Char) (h : op a = .error e)
    (hr : is_retryable_error e = false) :
    retryGo op d a f = ⟨.error e, a + 1, []⟩ := by
  rw [retryGo, h]
  simp [hr]

theorem retryGo_stop_exhausted (op : Nat → Except (List Char) A) (d : ℚ)
    (a : Nat) (e : List Char) (h : op a = .error e)
    (hr : is_retryable_error e = true) :
    retryGo op d a 0 = ⟨.error e, a + 1, []⟩ := by
  rw [retryGo, h]
  simp [hr]

theorem retryGo_step_retry (op : Nat → Except (List Char) A) (d : ℚ)
    (a f : Nat) (e : List Char) (h : op a = .error e)
    (hr : is_retryable_error e = true) :
    retryGo op d a (f + 1) =
      ⟨(retryGo op d (a + 1) f).result, (retryGo op d (a + 1) f).calls,
        (d * 2 ^ a) :: (retryGo op d (a + 1) f).delays⟩ := by
  rw [retryGo, h]
  simp [hr]

/-- C5: retry semantics of `run_with_retry_sync` / `run_with_retry`.
A non-retryably-failing operation is invoked exactly once and its failure
propagates unchanged; with `max_retries = 2`, an always-retryably-failing
operation is invoked exactly 3 times, sleeping `d·2⁰` then `d·2¹`, and the
final error is propagated; an operation failing retryably twice and then
succeeding returns the success value after exactly 3 invocations; the
`async` variant behaves identically; in general the delay before the
`k`-th retry (1-indexed) is `initial_delay * 2 ^ (k - 1)`. -/
theorem run_with_retry_sync_semantics {A : Type}
    (op : Nat → Except (List Char) A) (m : Nat) (d : ℚ) :
    (nonRetryableFailure (op 0) = true →
      run_with_retry_sync op m d = ⟨.error (errText (op 0)), 1, []⟩) ∧
    ((∀ i, i ≤ 2 → retryableFailure (op i) = true) →
      run_with_retry_sync op 2 d =
        ⟨.error (errText (op 2)), 3, [d * 2 ^ 0, d * 2 ^ 1]⟩) ∧
    (∀ v : A, retryableFailure (op 0) = true → retryableFailure (op 1) = true →
      op 2 = .ok v →
      run_with_retry_sync op 2 d = ⟨.ok v, 3, [d * 2 ^ 0, d * 2 ^ 1]⟩) ∧
    (∀ m2 : Nat, run_with_retry op m2 d = run_with_retry_sync op m2 d) ∧
    ((run_with_retry_sync op m d).delays =
      (List.range ((run_with_retry_sync op m d).calls - 1)).map
        (fun k => d * 2 ^ k)) := by
  refine ⟨?_, ?_, ?_, fun m2 => rfl, ?_⟩
  · intro h
    cases h0 : op 0 with
    | ok v => rw [h0] at h; simp [nonRetryableFailure] at h
    | error e =>
      rw [h0] at h
      simp only [nonRetryableFailure, Bool.not_eq_true'] at h
      rw [run_with_retry_sync, retryGo_stop_fatal op d 0 m e h0 h]
      rfl
  · intro h
    have h0 := h 0 (by omega)
    have h1 := h 1 (by omega)
    have h2 := h 2 (by omega)
    cases e0 : op 0 with
    | ok v => rw [e0] at h0; simp [retryableFailure] at h0
    | error x0 =>
      rw [e0] at h0; simp only [retryableFailure] at h0
      cases e1 : op 1 with
      | ok v => rw [e1] at h1; simp [retryableFailure] at h1
      | error x1 =>
        rw [e1] at h1; simp only [retryableFailure] at h1
        cases e2 : op 2 with
        | ok v => rw [e2] at h2; simp [retryableFailure] at h2
        | error x2 =>
          rw [e2] at h2; simp only [retryableFailure] at h2
          have s1 := retryGo_step_retry op d 0 1 x0 e0 h0
          have s2 := retryGo_step_retry op d 1 0 x1 e1 h1
          have s3 := retryGo_stop_exhausted op d 2 x2 e2 h2
          simp only [Nat.reduceAdd] at s1 s2
          rw [run_with_retry_sync, s1, s2, s3]
          rfl
  · intro v h0 h1 h2
    cases e0 : op 0 with
    | ok w => rw [e0] at h0; simp [retryableFailure] at h0
    | error x0 =>
      rw [e0] at h0; simp only [retryableFailure] at h0
      cases e1 : op 1 with
      | ok w => rw [e1] at h1; simp [retryableFailure] at h1
      | error x1 =>
        rw [e1] at h1; simp only [retryableFailure] at h1
        have s1 := retryGo_step_retry op d 0 1 x0 e0 h0
        have s2 := retryGo_step_retry op d 1 0 x1 e1 h1
        have s3 := retryGo_ok op d 2 0 v h2
        simp only [Nat.reduceAdd] at s1 s2
        rw [run_with_retry_sync, s1, s2, s3]
  · rw [run_with_retry_sync, retryGo_delays op d m 0]
    simp

/-- Witness for C5 at a concrete operation (fails with "429" twice, then
succeeds) and at a concrete non-retryable failure. -/
theorem run_with_retry_sync_semantics_witness :
    (retryableFailure ((fun j => if j < 2 then Except.error (str "429")
        else Except.ok (0 : Nat)) 0) = true) ∧
    (retryableFailure ((fun j => if j < 2 then Except.error (str "429")
        else Except.ok (0 : Nat)) 1) = true) ∧
    ((fun j => if j < 2 then Except.error (str "429")
        else Except.ok (0 : Nat)) 2 = Except.ok 0) ∧
    run_with_retry_sync (fun j => if j < 2 then Except.error (str "429")
        else Except.ok (0 : Nat)) 2 1 = ⟨.ok 0, 3, [1 * 2 ^ 0, 1 * 2 ^ 1]⟩ ∧
    (nonRetryableFailure ((fun _ : Nat => (Except.error (str "boom") :
        Except (List Char) Nat)) 0) = true) ∧
    run_with_retry_sync (fun _ : Nat => (Except.error (str "boom") :
        Except (List Char) Nat)) 5 2 =
      ⟨.error (errText ((fun _ : Nat => (Except.error (str "boom") :
        Except (List Char) Nat)) 0)), 1, []⟩ :=
  ⟨by decide, by decide, rfl,
    (run_with_retry_sync_semantics (fun j => if j < 2 then
        Except.error (str "429") else Except.ok (0 : Nat)) 5 1).2.2.1 0
      (by decide) (by decide) rfl,
    by decide,
    (run_with_retry_sync_semantics (fun _ : Nat => (Except.error (str "boom") :
        Except (List Char) Nat)) 5 2).1 (by decide)⟩

/-- C6 (counterexample): the signature defaults of
`run_with_retry` / `run_with_retry_sync` are NOT `max_retries = 8,
initial_delay = 5.0`: under the actual defaults an always-retryably-failing
operation is invoked 6 times, while `max_retries = 8` would invoke it
9 times. -/
theorem retry_defaults_counterexample :
    retry_signature_defaults ≠ ((8 : Nat), (5 : ℚ)) ∧
    (run_with_retry_sync (fun _ : Nat => (Except.error (str "429") :
        Except (List Char) Nat)) retry_signature_defaults.1
        retry_signature_defaults.2).calls = 6 ∧
    (run_with_retry_sync (fun _ : Nat => (Except.error (str "429") :
        Except (List Char) Nat)) 8 5).calls = 9 ∧
    (6 : Nat) ≠ 9 := by
  refine ⟨by decide, ?_, ?_, by decide⟩
  · rfl
  · rfl

/-- C6 (amended): the signature defaults of `run_with_retry` and
`run_with_retry_sync` are `max_retries = 5, initial_delay = 2.0`; the
values 8 and 5.0 are the environment-variable defaults of
`config.get_retry_max_attempts()` / `config.get_retry_delay_seconds()`,
which the call sites in `main.py` pass explicitly. -/
theorem retry_defaults_amended :
    retry_signature_defaults = ((5 : Nat), (2 : ℚ)) ∧
    get_retry_max_attempts none = 8 ∧
    get_retry_delay_seconds none = 5 ∧
    (∀ (A : Type) (op : Nat → Except (List Char) A),
      run_with_retry_sync op retry_signature_defaults.1
          retry_signature_defaults.2 = retryGo op 2 0 5 ∧
      run_with_retry op retry_signature_defaults.1
          retry_signature_defaults.2 = retryGo op 2 0 5) ∧
    (run_with_retry_sync (fun _ : Nat => (Except.error (str "429") :
        Except (List Char) Nat)) retry_signature_defaults.1
        retry_signature_defaults.2).calls = 6 :=
  ⟨rfl, rfl, rfl, fun A op => ⟨rfl, rfl⟩, rfl⟩

/-- C4: after every `_append_hashes` call the index holds at most
`MAX_LINES = 100000` lines; the result is exactly the suffix of
`old ++ new` of length `min ((old ++ new).length) MAX_LINES`, i.e. when
the cap is exceeded only the most recently appended 100000 entries are
retained and the oldest are discarded, never the newest. -/
theorem append_hashes_rotation (old new : List (List Char)) :
    _append_hashes old new =
      (old ++ new).drop ((old ++ new).length - MAX_LINES) ∧
    (_append_hashes old new).length ≤ MAX_LINES ∧
    (_append_hashes old new).length = min ((old ++ new).length) MAX_LINES := by
  simp only [_append_hashes]
  by_cases h : (old ++ new).length > MAX_LINES
  · rw [if_pos h]
    refine ⟨rfl, ?_, ?_⟩
    · rw [List.length_drop]
      omega
    · rw [List.length_drop]
      omega
  · rw [if_neg h]
    rw [Nat.not_lt] at h
    have h0 : (old ++ new).length - MAX_LINES = 0 := by omega
    rw [h0, List.drop_zero]
    exact ⟨rfl, by omega, by omega⟩

/- ## MD5 (`hashlib.md5(url.encode("utf-8")).hexdigest()[:8]`)

A complete executable MD5 over byte lists, with 32-bit words as naturals
reduced modulo `2 ^ 32`.  Structural recursion throughout so that concrete
hashes evaluate inside the kernel. -/

/-- Bitwise complement of a 32-bit word. -/
def comp32 (x : Nat) : Nat := 4294967295 - x

/-- Left-rotation of a 32-bit word. -/
def rotl32 (x s : Nat) : Nat := (x * 2 ^ s) % 4294967296 + x / 2 ^ (32 - s)

/-- The 64 MD5 sine-table constants. -/
def md5K : List Nat :=
  [3614090360, 3905402710, 606105819, 3250441966,
   4118548399, 1200080426, 2821735955, 4249261313,
   1770035416, 2336552879, 4294925233, 2304563134,
   1804603682, 4254626195, 2792965006, 1236535329,
   4129170786, 3225465664, 643717713, 3921069994,
   3593408605, 38016083, 3634488961, 3889429448,
   568446438, 3275163606, 4107603335, 1163531501,
   2850285829, 4243563512, 1735328473, 2368359562,
   4294588738, 2272392833, 1839030562, 4259657740,
   2763975236, 1272893353, 4139469664, 3200236656,
   681279174, 3936430074, 3572445317, 76029189,
   3654602809, 3873151461, 530742520, 3299628645,
   4096336452, 1126891415, 2878612391, 4237533241,
   1700485571, 2399980690, 4293915773, 2240044497,
   1873313359, 4264355552, 2734768916, 1309151649,
   4149444226, 3174756917, 718787259, 3951481745]

/-- The 64 MD5 per-round left-rotation amounts. -/
def md5S : List Nat :=
  [7, 12, 17, 22, 7, 12, 17, 22, 7, 12, 17, 22, 7, 12, 17, 22,
   5, 9, 14, 20, 5, 9, 14, 20, 5, 9, 14, 20, 5, 9, 14, 20,
   4, 11, 16, 23, 4, 11, 16, 23, 4, 11, 16, 23, 4, 11, 16, 23,
   6, 10, 15, 21, 6, 10, 15, 21, 6, 10, 15, 21, 6, 10, 15, 21]

/-- The little-endian 32-bit word `g` of a 64-byte chunk. -/
def md5Word (chunk : List Nat) (g : Nat) : Nat :=
  chunk.getD (4 * g) 0 + 256 * chunk.getD (4 * g + 1) 0 +
    65536 * chunk.getD (4 * g + 2) 0 + 16777216 * chunk.getD (4 * g + 3) 0

/-- One MD5 round step. -/
def md5Step (chunk : List Nat) (st : Nat × Nat × Nat × Nat) (i : Nat) :
    Nat × Nat × Nat × Nat :=
  let a := st.1
  let b := st.2.1
  let c := st.2.2.1
  let d := st.2.2.2
  let f :=
    if i < 16 then (b &&& c) ||| (comp32 b &&& d)
    else if i < 32 then (d &&& b) ||| (comp32 d &&& c)
    else if i < 48 then b ^^^ c ^^^ d
    else c ^^^ (b ||| comp32 d)
  let g :=
    if i < 16 then i
    else if i < 32 then (5 * i + 1) % 16
    else if i < 48 then (3 * i + 5) % 16
    else (7 * i) % 16
  let f2 := (f + a + md5K.getD i 0 + md5Word chunk g) % 4294967296
  (d, (b + rotl32 f2 (md5S.getD i 0)) % 4294967296, b, c)

/-- Process one 64-byte chunk. -/
def md5Chunk (st : Nat × Nat × Nat × Nat) (chunk : List Nat) :
    Nat × Nat × Nat × Nat :=
  let r := (List.range 64).foldl (md5Step chunk) st
  ((st.1 + r.1) % 4294967296, (st.2.1 + r.2.1) % 4294967296,
   (st.2.2.1 + r.2.2.1) % 4294967296, (st.2.2.2 + r.2.2.2) % 4294967296)

/-- Process `n` chunks of 64 bytes (structural on the chunk count). -/
def md5Loop : Nat → (Nat × Nat × Nat × Nat) → List Nat →
    Nat × Nat × Nat × Nat
  | 0, st, _ => st
  | n + 1, st, bytes => md5Loop n (md5Chunk st (bytes.take 64)) (bytes.drop 64)

/-- MD5 padding: a `0x80` byte, zeros to 56 mod 64, then the bit length as
a 64-bit little-endian quantity. -/
def md5Pad (msg : List Nat) : List Nat :=
  let bitLen := (msg.length * 8) % 18446744073709551616
  let r := (msg.length + 1) % 64
  let z := (120 - r) % 64
  msg ++ [128] ++ List.replicate z 0 ++
    [bitLen % 256, bitLen / 256 % 256, bitLen / 65536 % 256,
     bitLen / 16777216 % 256, bitLen / 4294967296 % 256,
     bitLen / 1099511627776 % 256, bitLen / 281474976710656 % 256,
     bitLen / 72057594037927936 % 256]

/-- The four-word MD5 state after hashing a byte string. -/
def md5Final (msg : List Nat) : Nat × Nat × Nat × Nat :=
  let padded := md5Pad msg
  md5Loop (padded.length / 64) (1732584193, 4023233417, 2562383102, 271733878)
    padded

/-- The little-endian bytes of a 32-bit word. -/
def wordLEBytes (w : Nat) : List Nat :=
  [w % 256, w / 256 % 256, w / 65536 % 256, w / 16777216 % 256]

/-- A lowercase hex digit. -/
def toHexChar (n : Nat) : Char := (str "0123456789abcdef").getD n '0'

/-- Two lowercase hex digits of a byte. -/
def byteHex (b : Nat) : List Char := [toHexChar (b / 16), toHexChar (b % 16)]

/-- `hashlib.md5(msg).hexdigest()` over a byte list. -/
def md5Hexdigest (msg : List Nat) : List Char :=
  let st := md5Final msg
  ((wordLEBytes st.1 ++ wordLEBytes st.2.1 ++ wordLEBytes st.2.2.1 ++
    wordLEBytes st.2.2.2).map byteHex).flatten

/-- UTF-8 bytes of one character (`url.encode("utf-8")`). -/
def utf8Bytes (c : Char) : List Nat :=
  let n := c.toNat
  if n < 128 then [n]
  else if n < 2048 then [192 + n / 64, 128 + n % 64]
  else if n < 65536 then
    [224 + n / 4096, 128 + (n / 64) % 64, 128 + n % 64]
  else
    [240 + n / 262144, 128 + (n / 4096) % 64, 128 + (n / 64) % 64,
     128 + n % 64]

/-- UTF-8 encoding of a character list. -/
def utf8Encode (l : List Char) : List Nat := (l.map utf8Bytes).flatten

/- ## Deduplication engine (`src/tools/dedup.py`) -/

/-- An item: a string-to-string mapping with distinguished `url` and
`title` keys; `fields` holds the remaining key/value pairs. -/
structure Item where
  url : Option (List Char)
  title : Option (List Char)
  fields : List (List Char × List Char)
  deriving DecidableEq

/-- `item.get("url")` followed by the falsy test `if not url`: a missing
key and an empty string are both treated as absent. -/
def truthyUrl (it : Item) : Option (List Char) :=
  match it.url with
  | none => none
  | some [] => none
  | some u => some u

/-- `_compute_hash`: the first 8 characters of the MD5 hex digest of the
UTF-8 encoded URL. -/
def _compute_hash (url : List Char) : List Char :=
  (md5Hexdigest (utf8Encode url)).take 8

/-- `_load_seen_hashes`: the stripped, non-empty lines of `seen_urls.txt`
(Python builds a set; only membership is ever used, so a list of the same
elements models it). -/
def _load_seen_hashes (fileLines : List (List Char)) : List (List Char) :=
  (fileLines.map pyStrip).filter (fun l => l ≠ [])

/-- The item loop of `deduplicate_items`: `seen` is the persisted hash
set, `batch` the in-call `current_batch_hashes` set; returns
`(unique_items, new_hashes)`. -/
def dedupGo (seen : List (List Char)) :
    List (List Char) → List Item → List Item × List (List Char)
  | _, [] => ([], [])
  | batch, it :: rest =>
    match truthyUrl it with
    | none => dedupGo seen batch rest
    | some u =>
      let h := _compute_hash u
      if h ∈ seen then dedupGo seen batch rest
      else if h ∈ batch then dedupGo seen batch rest
      else
        let r := dedupGo seen (h :: batch) rest
        (it :: r.1, h :: r.2)

/-- Result of one `deduplicate_items` call: the returned list, the
`seen_urls.txt` lines afterwards, and the argument of each
`_append_hashes` invocation performed. -/
structure DedupResult where
  items : List Item
  fileLines : List (List Char)
  appendCalls : List (List (List Char))
  deriving DecidableEq

/-- `deduplicate_items`: filter out items whose URL hash is persisted or
repeated within the batch, then persist the new hashes with a single
`_append_hashes` call iff there are any. -/
def deduplicate_items (fileLines : List (List Char)) (items : List Item) :
    DedupResult :=
  let seen := _load_seen_hashes fileLines
  let r := dedupGo seen [] items
  if r.2 = [] then ⟨r.1, fileLines, []⟩
  else ⟨r.1, _append_hashes fileLines r.2, [r.2]⟩

/-- Modelled from the spec for comparison (`filterNew`, §4.1, as amended):
keep an item iff it has a (non-empty) `url` whose fingerprint is neither
in the persisted index nor equal to the fingerprint of an earlier kept
item of the same call. -/
def filterNewSpec (index : List (List Char)) :
    List (List Char) → List Item → List Item
  | _, [] => []
  | earlier, it :: rest =>
    match truthyUrl it with
    | none => filterNewSpec index earlier rest
    | some u =>
      let h := _compute_hash u
      if h ∈ index ∨ h ∈ earlier then filterNewSpec index earlier rest
      else it :: filterNewSpec index (_compute_hash u :: earlier) rest

/-- The fingerprint of a kept item (kept items always have a URL). -/
def itemHash (it : Item) : List Char :=
  _compute_hash ((truthyUrl it).getD [])

theorem dedupGo_eq_filterNewSpec (seen : List (List Char)) :
    ∀ (items : List Item) (batch : List (List Char)),
    dedupGo seen batch items =
      (filterNewSpec seen batch items,
        (filterNewSpec seen batch items).map itemHash) := by
  intro items
  induction items with
  | nil => intro batch; rfl
  | cons it rest ih =>
    intro batch
    rw [dedupGo, filterNewSpec]
    cases hu : truthyUrl it with
    | none => exact ih batch
    | some u =>
      simp only
      by_cases hs : _compute_hash u ∈ seen
      · rw [if_pos hs, if_pos (Or.inl hs)]
        exact ih batch
      · rw [if_neg hs]
        by_cases hb : _compute_hash u ∈ batch
        · rw [if_pos hb, if_pos (Or.inr hb)]
          exact ih batch
        · rw [if_neg hb, if_neg (by tauto)]
          rw [ih (_compute_hash u :: batch)]
          simp [itemHash, hu]

theorem toHexChar_not_space (n : Nat) : pyIsSpace (toHexChar n) = false := by
  unfold toHexChar
  rcases Nat.lt_or_ge n 16 with h | h
  · interval_cases n <;> decide
  · rw [List.getD_eq_default]
    · decide
    · simpa using h

theorem md5Hexdigest_not_space (m : List Nat) (c : Char)
    (hc : c ∈ md5Hexdigest m) : pyIsSpace c = false := by
  unfold md5Hexdigest at hc
  simp only [List.mem_flatten, List.mem_map] at hc
  obtain ⟨l, ⟨b, hb, rfl⟩, hcl⟩ := hc
  simp only [byteHex, List.mem_cons, List.not_mem_nil, or_false] at hcl
  rcases hcl with rfl | rfl
  · exact toHexChar_not_space _
  · exact toHexChar_not_space _

theorem md5Hexdigest_length (m : List Nat) :
    (md5Hexdigest m).length = 32 := by
  unfold md5Hexdigest
  simp [wordLEBytes, byteHex]

theorem dropWhile_eq_self_of (p : Char → Bool) (l : List Char)
    (h : ∀ c ∈ l, p c = false) : l.dropWhile p = l := by
  cases l with
  | nil => rfl
  | cons c t =>
    rw [List.dropWhile_cons, h c (by simp)]
    simp

theorem pyStrip_eq_self (l : List Char)
    (h : ∀ c ∈ l, pyIsSpace c = false) : pyStrip l = l := by
  unfold pyStrip
  rw [dropWhile_eq_self_of pyIsSpace l h,
    dropWhile_eq_self_of pyIsSpace l.reverse (by simpa using h),
    List.reverse_reverse]

theorem compute_hash_ne_nil (u : List Char) : _compute_hash u ≠ [] := by
  unfold _compute_hash
  intro h
  have hl := congrArg List.length h
  rw [List.length_take, md5Hexdigest_length] at hl
  simp at hl

theorem pyStrip_compute_hash (u : List Char) :
    pyStrip (_compute_hash u) = _compute_hash u := by
  apply pyStrip_eq_self
  intro c hc
  exact md5Hexdigest_not_space (utf8Encode u) c (List.mem_of_mem_take hc)

/-- Helper: `_append_hashes` always returns the suffix of `old ++ new`
obtained by dropping down to `MAX_LINES` lines. -/
theorem append_hashes_drop_eq (old new : List (List Char)) :
    _append_hashes old new =
      (old ++ new).drop ((old ++ new).length - MAX_LINES) := by
  simp only [_append_hashes]
  by_cases h : (old ++ new).length > MAX_LINES
  · rw [if_pos h]
  · rw [if_neg h]
    rw [Nat.not_lt] at h
    have h0 : (old ++ new).length - MAX_LINES = 0 := by omega
    rw [h0, List.drop_zero]

theorem append_hashes_keeps_last (fl : List (List Char)) (h : List Char) :
    h ∈ _append_hashes fl [h] := by
  rw [append_hashes_drop_eq]
  have hM : MAX_LINES = 100000 := rfl
  have hlen : (fl ++ [h]).length = fl.length + 1 := by simp
  have hk : (fl ++ [h]).length - MAX_LINES ≤ fl.length := by omega
  rw [List.drop_append_of_le_length hk]
  simp

theorem mem_load_seen (fl : List (List Char)) (h : List Char)
    (hm : h ∈ fl) (hs : pyStrip h = h) (hne : h ≠ []) :
    h ∈ _load_seen_hashes fl := by
  unfold _load_seen_hashes
  rw [List.mem_filter]
  refine ⟨?_, by simp [hne]⟩
  rw [← hs]
  exact List.mem_map_of_mem pyStrip hm

/-- Helper: closed form of `deduplicate_items` in terms of the reference
filter. -/
theorem deduplicate_items_eq (fl : List (List Char)) (its : List Item) :
    deduplicate_items fl its =
      if filterNewSpec (_load_seen_hashes fl) [] its = []
      then ⟨filterNewSpec (_load_seen_hashes fl) [] its, fl, []⟩
      else ⟨filterNewSpec (_load_seen_hashes fl) [] its,
        _append_hashes fl ((filterNewSpec (_load_seen_hashes fl) [] its).map
          itemHash),
        [(filterNewSpec (_load_seen_hashes fl) [] its).map itemHash]⟩ := by
  simp only [deduplicate_items]
  rw [dedupGo_eq_filterNewSpec]
  by_cases hk : filterNewSpec (_load_seen_hashes fl) [] its = []
  · rw [if_pos (by simp [hk]), if_pos hk, hk]
  · rw [if_neg (by simpa using hk), if_neg hk]

/-- C2 (counterexample): an input item with no `url` field is dropped by
`deduplicate_items` even though its fingerprint is neither in the
persisted index nor repeated earlier in the batch, so the returned list is
not "the input minus the fingerprint-duplicates" as the claim states. -/
theorem deduplicate_items_counterexample :
    (deduplicate_items [] [⟨none, some (str "Title"), []⟩]).items = [] ∧
    (deduplicate_items [] [⟨none, some (str "Title"), []⟩]).items ≠
      [⟨none, some (str "Title"), []⟩] := by
  constructor
  · rfl
  · intro h
    rw [show (deduplicate_items [] [⟨none, some (str "Title"), []⟩]).items =
      [] from rfl] at h
    cases h

/-- C2 (amended): `deduplicate_items` drops exactly those items that lack
a (non-empty) `url` or whose fingerprint is in the persisted index or has
appeared earlier in the same call; all newly seen fingerprints are
persisted in exactly one `_append_hashes` call (none when nothing is
kept); a call with two items of the same unseen URL keeps exactly the
first; after a call with an unseen URL, a second independent call with an
item of the same URL returns the empty list. -/
theorem deduplicate_items_spec (fileLines : List (List Char))
    (items : List Item) (it1 it2 : Item) (u : List Char) :
    ((deduplicate_items fileLines items).items =
      filterNewSpec (_load_seen_hashes fileLines) [] items) ∧
    ((deduplicate_items fileLines items).appendCalls =
      if filterNewSpec (_load_seen_hashes fileLines) [] items = [] then []
      else [(filterNewSpec (_load_seen_hashes fileLines) [] items).map
        itemHash]) ∧
    ((deduplicate_items fileLines items).fileLines =
      if filterNewSpec (_load_seen_hashes fileLines) [] items = []
      then fileLines
      else _append_hashes fileLines
        ((filterNewSpec (_load_seen_hashes fileLines) [] items).map
          itemHash)) ∧
    (truthyUrl it1 = some u → truthyUrl it2 = some u →
      _compute_hash u ∉ _load_seen_hashes fileLines →
      (deduplicate_items fileLines [it1, it2]).items = [it1]) ∧
    (truthyUrl it1 = some u → truthyUrl it2 = some u →
      _compute_hash u ∉ _load_seen_hashes fileLines →
      (deduplicate_items
        (deduplicate_items fileLines [it1]).fileLines [it2]).items = []) := by
  have hfilter2 : ∀ (fl : List (List Char)),
      truthyUrl it1 = some u → truthyUrl it2 = some u →
      _compute_hash u ∉ _load_seen_hashes fl →
      filterNewSpec (_load_seen_hashes fl) [] [it1, it2] = [it1] := by
    intro fl h1 h2 hns
    rw [filterNewSpec, h1]
    simp only
    rw [if_neg (by simpa using hns)]
    rw [filterNewSpec, h2]
    simp only
    rw [if_pos (by simp)]
    rfl
  refine ⟨?_, ?_, ?_, ?_, ?_⟩
  · by_cases hk : filterNewSpec (_load_seen_hashes fileLines) [] items = [] <;>
      simp [deduplicate_items_eq, hk]
  · by_cases hk : filterNewSpec (_load_seen_hashes fileLines) [] items = [] <;>
      simp [deduplicate_items_eq, hk]
  · by_cases hk : filterNewSpec (_load_seen_hashes fileLines) [] items = [] <;>
      simp [deduplicate_items_eq, hk]
  · intro h1 h2 hns
    rw [deduplicate_items_eq fileLines [it1, it2],
      hfilter2 fileLines h1 h2 hns]
    rw [if_neg (by simp)]
  · intro h1 h2 hns
    have hone : filterNewSpec (_load_seen_hashes fileLines) [] [it1] =
        [it1] := by
      rw [filterNewSpec, h1]
      simp only
      rw [if_neg (by simpa using hns)]
      rfl
    rw [deduplicate_items_eq fileLines [it1], if_neg (by rw [hone]; simp),
      hone]
    have hh : itemHash it1 = _compute_hash u := by
      unfold itemHash
      rw [h1]
      rfl
    have hin : _compute_hash u ∈
        _load_seen_hashes (_append_hashes fileLines
          ([it1].map itemHash)) := by
      apply mem_load_seen
      · rw [show ([it1].map itemHash) = [_compute_hash u] by simp [hh]]
        exact append_hashes_keeps_last fileLines (_compute_hash u)
      · exact pyStrip_compute_hash u
      · exact compute_hash_ne_nil u
    rw [deduplicate_items_eq _ [it2]]
    have hfe : filterNewSpec (_load_seen_hashes (_append_hashes fileLines
        ([it1].map itemHash))) [] [it2] = [] := by
      rw [filterNewSpec, h2]
      simp only
      rw [if_pos (Or.inl hin)]
      rfl
    rw [if_pos hfe, hfe]

/-- Witness for C2 with a concrete URL and an initially empty index. -/
theorem deduplicate_items_spec_witness :
    (truthyUrl ⟨some (str "http://a.com/1"), none, []⟩ =
      some (str "http://a.com/1")) ∧
    (_compute_hash (str "http://a.com/1") ∉ _load_seen_hashes []) ∧
    ((deduplicate_items [] [⟨some (str "http://a.com/1"), none, []⟩,
        ⟨some (str "http://a.com/1"), none, []⟩]).items =
      [⟨some (str "http://a.com/1"), none, []⟩]) ∧
    ((deduplicate_items
        (deduplicate_items [] [⟨some (str "http://a.com/1"), none,
          []⟩]).fileLines
        [⟨some (str "http://a.com/1"), none, []⟩]).items = []) :=
  ⟨rfl, by simp [_load_seen_hashes],
    (deduplicate_items_spec [] [] ⟨some (str "http://a.com/1"), none, []⟩
      ⟨some (str "http://a.com/1"), none, []⟩ (str "http://a.com/1")).2.2.2.1
      rfl rfl (by simp [_load_seen_hashes]),
    (deduplicate_items_spec [] [] ⟨some (str "http://a.com/1"), none, []⟩
      ⟨some (str "http://a.com/1"), none, []⟩ (str "http://a.com/1")).2.2.2.2
      rfl rfl (by simp [_load_seen_hashes])⟩

/-- C10: when `deduplicate_items` keeps no items it performs no write:
the persisted index is returned unchanged and `_append_hashes` is never
invoked. -/
theorem deduplicate_items_no_write (fileLines : List (List Char))
    (items : List Item)
    (h : (deduplicate_items fileLines items).items = []) :
    (deduplicate_items fileLines items).fileLines = fileLines ∧
    (deduplicate_items fileLines items).appendCalls = [] := by
  rw [deduplicate_items_eq] at h ⊢
  by_cases hk : filterNewSpec (_load_seen_hashes fileLines) [] items = []
  · rw [if_pos hk]
    exact ⟨rfl, rfl⟩
  · exfalso
    rw [if_neg hk] at h
    exact hk h

set_option maxRecDepth 8000 in
/-- Witness for C10: a URL whose fingerprint is already persisted. -/
theorem deduplicate_items_no_write_witness :
    ((deduplicate_items [_compute_hash (str "http://a.com/1")]
        [⟨some (str "http://a.com/1"), none, []⟩]).items = []) ∧
    ((deduplicate_items [_compute_hash (str "http://a.com/1")]
        [⟨some (str "http://a.com/1"), none, []⟩]).fileLines =
      [_compute_hash (str "http://a.com/1")]) ∧
    ((deduplicate_items [_compute_hash (str "http://a.com/1")]
        [⟨some (str "http://a.com/1"), none, []⟩]).appendCalls = []) := by
  have h0 : (deduplicate_items [_compute_hash (str "http://a.com/1")]
      [⟨some (str "http://a.com/1"), none, []⟩]).items = [] := by decide
  have h := deduplicate_items_no_write
    [_compute_hash (str "http://a.com/1")]
    [⟨some (str "http://a.com/1"), none, []⟩] h0
  exact ⟨h0, h.1, h.2⟩

/- ## Staged log store, reading side (`src/tools/storage.py`) -/

/-- The block separator `"\n---\n"` of `storage.py`. -/
def SEPARATOR : List Char := ['\n', '-', '-', '-', '\n']

/-- Python `content.split(SEPARATOR)`: non-overlapping, left-to-right. -/
def splitSep (s : List Char) : List (List Char) :=
  if SEPARATOR.isPrefixOf s then [] :: splitSep (s.drop 5)
  else
    match s with
    | [] => [[]]
    | c :: rest =>
      match splitSep rest with
      | [] => [[c]]
      | x :: xs => (c :: x) :: xs
termination_by s.length
decreasing_by
  · have hp : SEPARATOR <+: s := List.isPrefixOf_iff_prefix.mp (by assumption)
    have h5 : 5 ≤ s.length := by
      simpa [SEPARATOR] using hp.length_le
    simp [List.length_drop]
    omega
  · simp

/-- Python `content.count(SEPARATOR)`: non-overlapping, left-to-right. -/
def countSep (s : List Char) : Nat :=
  if SEPARATOR.isPrefixOf s then countSep (s.drop 5) + 1
  else
    match s with
    | [] => 0
    | _ :: rest => countSep rest
termination_by s.length
decreasing_by
  · have hp : SEPARATOR <+: s := List.isPrefixOf_iff_prefix.mp (by assumption)
    have h5 : 5 ≤ s.length := by
      simpa [SEPARATOR] using hp.length_le
    simp [List.length_drop]
    omega
  · simp

/-- The sentinel returned by `read_raw_log` for an absent file. -/
def rawNotFoundToday : List Char := str "No raw items found for today."

/-- The sentinel returned by `read_raw_items_batch` for an absent or
empty log. -/
def rawNotFound : List Char := str "No raw items found."

/-- `read_raw_log`: the file content, or the "not found" sentinel when
the file does not exist. -/
def read_raw_log : Option (List Char) → List Char
  | none => rawNotFoundToday
  | some c => c

/-- `get_raw_item_count`: 0 for an empty/absent log, otherwise
`content.count(SEPARATOR) + 1`. -/
def get_raw_item_count (file : Option (List Char)) : Nat :=
  let content := read_raw_log file
  if content = [] ∨ content = rawNotFoundToday then 0
  else countSep content + 1

/-- The item blocks of raw content: split on the separator, discarding
blocks that are empty after stripping (`[i for i in items if i.strip()]`). -/
def rawItemBlocks (content : List Char) : List (List Char) :=
  (splitSep content).filter (fun i => pyStrip i ≠ [])

/-- `read_raw_items_batch`: returns the `[offset, offset+limit)` block
slice re-joined with the separator; the sentinel for an absent/empty log;
the empty string when `offset ≥ total`. -/
def read_raw_items_batch (file : Option (List Char)) (offset limit : Nat) :
    List Char :=
  let content := read_raw_log file
  if content = [] ∨ content = rawNotFoundToday then rawNotFound
  else
    let items := rawItemBlocks content
    if offset ≥ items.length then []
    else List.intercalate SEPARATOR ((items.drop offset).take limit)

/-- C8 (counterexample): for an absent (or empty) raw log — where the
total is 0 and so `offset ≥ total` — `read_raw_items_batch` returns the
sentinel string `"No raw items found."`, not the empty string as claimed. -/
theorem read_raw_items_batch_offset_counterexample :
    read_raw_items_batch none 0 1 = rawNotFound ∧
    read_raw_items_batch (some []) 0 1 = rawNotFound ∧
    rawNotFound ≠ [] := by
  refine ⟨rfl, rfl, ?_⟩
  intro h
  cases h

/-- C8 (amended): for a present, non-empty raw log different from the
"not found" sentinel text, any `offset ≥` the number of item blocks
yields the empty string; an absent or empty log yields the sentinel
`"No raw items found."` instead. -/
theorem read_raw_items_batch_offset_amended (content : List Char)
    (offset limit : Nat) (hc : content ≠ []) (hs : content ≠ rawNotFoundToday)
    (ho : offset ≥ (rawItemBlocks content).length) :
    read_raw_items_batch (some content) offset limit = [] ∧
    read_raw_items_batch none offset limit = rawNotFound ∧
    read_raw_items_batch (some []) offset limit = rawNotFound := by
  refine ⟨?_, rfl, rfl⟩
  unfold read_raw_items_batch read_raw_log
  rw [if_neg (by simp [hc, hs]), if_pos ho]

/-- Witness for C8 on a concrete two-block log with offset past the end. -/
theorem read_raw_items_batch_offset_amended_witness :
    (str "\n---\nAAA\n---\nBBB" ≠ []) ∧
    (str "\n---\nAAA\n---\nBBB" ≠ rawNotFoundToday) ∧
    ((5 : Nat) ≥ (rawItemBlocks (str "\n---\nAAA\n---\nBBB")).length) ∧
    read_raw_items_batch (some (str "\n---\nAAA\n---\nBBB")) 5 1 = [] :=
  ⟨by decide, by decide,
    by simp [rawItemBlocks, splitSep, str, List.isPrefixOf, SEPARATOR, pyStrip,
      pyIsSpace],
    (read_raw_items_batch_offset_amended (str "\n---\nAAA\n---\nBBB") 5 1
      (by decide) (by decide)
      (by simp [rawItemBlocks, splitSep, str, List.isPrefixOf, SEPARATOR,
        pyStrip, pyIsSpace])).1⟩

/-- Helper: covering a list by `ceil (length / B)` consecutive `B`-sized
take/drop slices reconstructs the list exactly. -/
theorem flatten_chunks {α : Type} (B : Nat) (hB : 0 < B) (l : List α) :
    ((List.range ((l.length + B - 1) / B)).map
      (fun k => (l.drop (k * B)).take B)).flatten = l := by
  have key : ∀ n : Nat,
      ((List.range n).map (fun k => (l.drop (k * B)).take B)).flatten =
        l.take (n * B) := by
    intro n
    induction n with
    | zero => simp
    | succ n ih =>
      rw [List.range_succ, List.map_append, List.flatten_append, ih]
      simp only [List.map_cons, List.map_nil, List.flatten_cons,
        List.flatten_nil, List.append_nil]
      rw [Nat.succ_mul, List.take_add]
  rw [key]
  apply List.take_of_length_le
  have hd := Nat.div_add_mod (l.length + B - 1) B
  have hm : (l.length + B - 1) % B < B := Nat.mod_lt _ hB
  set q := (l.length + B - 1) / B with hq
  set r := (l.length + B - 1) % B with hr
  have hcomm : q * B = B * q := Nat.mul_comm q B
  rw [hcomm]
  set t := B * q with ht
  omega

/-- C3: for a present, non-empty raw log, each call
`read_raw_items_batch(k*B, B)` returns the separator-join of the `k`-th
`B`-sized slice of the item-block list, and the concatenation of the
slices for `k = 0 .. ceil(N/B) - 1` is exactly the `N`-block list — every
block exactly once, no gaps, no repeats. -/
theorem read_raw_items_batch_coverage (content : List Char) (B : Nat)
    (hc : content ≠ []) (hs : content ≠ rawNotFoundToday) (hB : 0 < B) :
    (∀ k : Nat, read_raw_items_batch (some content) (k * B) B =
      List.intercalate SEPARATOR
        (((rawItemBlocks content).drop (k * B)).take B)) ∧
    ((List.range (((rawItemBlocks content).length + B - 1) / B)).map
      (fun k => ((rawItemBlocks content).drop (k * B)).take B)).flatten =
      rawItemBlocks content := by
  constructor
  · intro k
    unfold read_raw_items_batch read_raw_log
    rw [if_neg (by simp [hc, hs])]
    by_cases ho : k * B ≥ (rawItemBlocks content).length
    · rw [if_pos ho]
      rw [List.drop_eq_nil_of_le ho]
      simp [List.intercalate]
    · rw [if_neg ho]
  · exact flatten_chunks B hB (rawItemBlocks content)

/-- Witness for C3 on a concrete two-block log with `B = 1`. -/
theorem read_raw_items_batch_coverage_witness :
    (str "\n---\nAAA\n---\nBBB" ≠ []) ∧
    (str "\n---\nAAA\n---\nBBB" ≠ rawNotFoundToday) ∧ (0 : Nat) < 1 ∧
    ((List.range (((rawItemBlocks (str "\n---\nAAA\n---\nBBB")).length
        + 1 - 1) / 1)).map
      (fun k => ((rawItemBlocks (str "\n---\nAAA\n---\nBBB")).drop (k * 1)).take
        1)).flatten = rawItemBlocks (str "\n---\nAAA\n---\nBBB") :=
  ⟨by decide, by decide, by decide,
    (read_raw_items_batch_coverage (str "\n---\nAAA\n---\nBBB") 1
      (by decide) (by decide) (by decide)).2⟩

/- ## Staged log store, append side (`src/tools/storage.py`) -/

/-- State machine for `re.sub(r'\s+', ' ', s)`: a maximal whitespace run
becomes a single space. -/
def collapseWsGo (prevSpace : Bool) : List Char → List Char
  | [] => []
  | c :: rest =>
    if pyIsSpace c then
      if prevSpace then collapseWsGo true rest
      else ' ' :: collapseWsGo true rest
    else c :: collapseWsGo false rest

/-- `re.sub(r'\s+', ' ', s)`. -/
def collapseWs (l : List Char) : List Char := collapseWsGo false l

/-- State machine for Python `str.title()` (ASCII): a letter is
uppercased after a non-letter and lowercased after a letter. -/
def pyTitleGo (prevAlpha : Bool) : List Char → List Char
  | [] => []
  | c :: rest =>
    (if c.isAlpha then (if prevAlpha then c.toLower else c.toUpper) else c) ::
      pyTitleGo c.isAlpha rest

/-- Python `str.title()`. -/
def pyTitle (l : List Char) : List Char := pyTitleGo false l

/-- `_clean_title`, with the external `html2text` handle as parameter
`h2t`: strip, collapse newlines to spaces, delete carriage returns,
collapse whitespace runs, strip again, truncate to 80 characters with an
ellipsis; `"No Title"` for a missing or empty title. -/
def _clean_title (h2t : List Char → List Char) (title : Option (List Char)) :
    List Char :=
  let raw := title.getD (str "No Title")
  if raw = [] then str "No Title"
  else
    let t1 := pyStrip (h2t raw)
    let t2 := (t1.map (fun c => if c = '\n' then ' ' else c)).filter
      (fun c => c ≠ '\r')
    let t3 := pyStrip (collapseWs t2)
    if t3.length > 80 then t3.take 77 ++ str "..." else t3

/-- Lexicographic comparison of keys (Python string `<=`, by code point). -/
def leKey : List Char → List Char → Bool
  | [], _ => true
  | _ :: _, [] => false
  | a :: as, b :: bs =>
    if a.toNat < b.toNat then true
    else if b.toNat < a.toNat then false
    else leKey as bs

/-- Stable insertion into a key-sorted association list. -/
def insertKey (kv : List Char × List Char) :
    List (List Char × List Char) → List (List Char × List Char)
  | [] => [kv]
  | x :: xs => if leKey kv.1 x.1 then kv :: x :: xs else x :: insertKey kv xs

/-- `sorted(item.keys())`: stable sort of the field list by key. -/
def sortKeys : List (List Char × List Char) → List (List Char × List Char)
  | [] => []
  | x :: xs => insertKey x (sortKeys xs)

/-- One `**Label:** value` line of an item block (empty fields are
omitted; the `content` field goes through the external
HTML-to-markdown conversion `ch` first; the label humanizes the key). -/
def renderField (ch : List Char → List Char) (kv : List Char × List Char) :
    List Char :=
  if kv.2 = [] then []
  else
    let label := pyTitle (kv.1.map (fun c => if c = '_' then ' ' else c))
    let v := if kv.1 = str "content" then ch kv.2 else kv.2
    str "**" ++ label ++ str ":** " ++ v ++ ['\n']

/-- The block text of one item after the leading separator: the heading
line `## [title](url)` followed by the rendered fields in lexicographic
key order (`title` and `url` excluded). -/
def renderTail (h2t ch : List Char → List Char) (it : Item) (url : List Char) :
    List Char :=
  str "## [" ++ _clean_title h2t it.title ++ str "](" ++ url ++
    [')', '\n'] ++
    (((sortKeys it.fields).filter
        (fun kv => kv.1 ≠ str "title" ∧ kv.1 ≠ str "url")).map
      (renderField ch)).flatten

/- ### URL extraction (`_extract_urls_from_markdown`) -/

/-- A character matched by the regex class `[^\s\)]`. -/
def isUrlChar (c : Char) : Bool := !pyIsSpace c && c ≠ ')'

/-- Greedy `[^\s\)]*`: the maximal run and the remainder. -/
def takeUrlChars : List Char → List Char × List Char
  | [] => ([], [])
  | c :: rest =>
    if isUrlChar c then
      let r := takeUrlChars rest
      (c :: r.1, r.2)
    else ([], c :: rest)

/-- The literal `http://`. -/
def httpPrefix : List Char := str "http://"

/-- The literal `https://`. -/
def httpsPrefix : List Char := str "https://"

/-- `https?://` with the greedy optional `s`: the matched scheme and the
remainder. -/
def matchScheme (s : List Char) : Option (List Char × List Char) :=
  if httpsPrefix.isPrefixOf s then some (httpsPrefix, s.drop 8)
  else if httpPrefix.isPrefixOf s then some (httpPrefix, s.drop 7)
  else none

/-- `(https?://[^\s\)]+)\)`: the captured URL and the remainder after the
closing parenthesis (the greedy class run cannot be shrunk: its characters
never equal `)`). -/
def matchUrlParen (s : List Char) : Option (List Char × List Char) :=
  match matchScheme s with
  | none => none
  | some (scheme, rest) =>
    let r := takeUrlChars rest
    if r.1 = [] then none
    else
      match r.2 with
      | [] => none
      | c :: rest3 => if c = ')' then some (scheme ++ r.1, rest3) else none

/-- The `\((https?://[^\s\)]+)\)` part that must follow the `\]` of a
markdown link. -/
def matchAfterBracket : List Char → Option (List Char × List Char)
  | [] => none
  | c :: rest2 => if c = '(' then matchUrlParen rest2 else none

/-- After an opening `[`: the non-greedy `.*?\]\((https?://[^\s\)]+)\)`.
`.` does not match a newline, so the whole match stays on one line; the
scan consumes characters one at a time, trying `](url)` at each point. -/
def matchInner : List Char → Option (List Char × List Char)
  | [] => none
  | c :: rest =>
    match (if c = ']' then matchAfterBracket rest else none) with
    | some r => some r
    | none => if c = '\n' then none else matchInner rest

theorem takeUrlChars_append_eq (l : List Char) :
    (takeUrlChars l).1 ++ (takeUrlChars l).2 = l := by
  induction l with
  | nil => rfl
  | cons c rest ih =>
    rw [takeUrlChars]
    by_cases h : isUrlChar c = true
    · simp only [h, if_pos]
      simpa using ih
    · rw [if_neg h]
      rfl

theorem takeUrlChars_len (l : List Char) :
    (takeUrlChars l).2.length ≤ l.length := by
  have h := congrArg List.length (takeUrlChars_append_eq l)
  rw [List.length_append] at h
  omega

theorem matchScheme_len (s u t : List Char) (h : matchScheme s = some (u, t)) :
    t.length + 7 ≤ s.length := by
  unfold matchScheme at h
  by_cases h8 : httpsPrefix.isPrefixOf s
  · rw [if_pos h8] at h
    have hp := List.isPrefixOf_iff_prefix.mp h8
    have h5 : 8 ≤ s.length := by simpa [httpsPrefix, str] using hp.length_le
    cases h
    simp [List.length_drop]
    omega
  · rw [if_neg h8] at h
    by_cases h7 : httpPrefix.isPrefixOf s
    · rw [if_pos h7] at h
      have hp := List.isPrefixOf_iff_prefix.mp h7
      have h5 : 7 ≤ s.length := by simpa [httpPrefix, str] using hp.length_le
      cases h
      simp [List.length_drop]
      omega
    · rw [if_neg h7] at h
      cases h

theorem matchUrlParen_len (s u t : List Char)
    (h : matchUrlParen s = some (u, t)) : t.length < s.length := by
  unfold matchUrlParen at h
  cases hs : matchScheme s with
  | none => rw [hs] at h; cases h
  | some p =>
    obtain ⟨scheme, rest⟩ := p
    rw [hs] at h
    simp only at h
    by_cases he : (takeUrlChars rest).1 = []
    · rw [if_pos he] at h
      cases h
    · rw [if_neg he] at h
      split at h
      · cases h
      · rename_i c2 rest3 heq
        split at h
        · cases h
          have h1 := matchScheme_len s scheme rest hs
          have h2 := takeUrlChars_len rest
          rw [heq] at h2
          simp at h2
          omega
        · cases h

theorem matchAfterBracket_len (s u t : List Char)
    (h : matchAfterBracket s = some (u, t)) : t.length + 1 < s.length := by
  cases s with
  | nil => cases h
  | cons c rest2 =>
    rw [matchAfterBracket] at h
    split at h
    · have := matchUrlParen_len rest2 u t h
      simp
      omega
    · cases h

theorem matchInner_len (s : List Char) :
    ∀ u t, matchInner s = some (u, t) → t.length < s.length := by
  induction s with
  | nil => intro u t h; cases h
  | cons c rest ih =>
    intro u t h
    rw [matchInner] at h
    split at h
    · rename_i r hm
      cases h
      split at hm
      · have := matchAfterBracket_len rest u t hm
        simp
        omega
      · cases hm
    · rename_i hm
      split at h
      · cases h
      · have := ih u t h
        simp
        omega

/-- `re.findall(r'\[.*?\]\((https?://[^\s\)]+)\)', content)`: scan left to
right; at every `[` try the link pattern; on success capture the URL and
continue after the full match (matches never overlap). -/
def scanMd (s : List Char) : List (List Char) :=
  match s with
  | [] => []
  | c :: rest =>
    if c = '[' then
      match hm : matchInner rest with
      | some r => r.1 :: scanMd r.2
      | none => scanMd rest
    else scanMd rest
termination_by s.length
decreasing_by
  · have := matchInner_len rest r.1 r.2 (by rw [hm])
    simp
    omega
  · simp
  · simp

/-- `re.findall(r'(?<!\()https?://[^\s\)]+', content)`: scan left to
right; at a position not preceded by `(` try the bare-URL pattern; on
success capture the match and continue after it, remembering whether the
last consumed character was `(`. -/
def scanBare (prevParen : Bool) (s : List Char) : List (List Char) :=
  match s with
  | [] => []
  | c :: rest =>
    if prevParen then scanBare (c = '(') rest
    else
      match hp : matchScheme (c :: rest) with
      | some p =>
        match hr : takeUrlChars p.2 with
        | (run, rest2) =>
          if run = [] then scanBare (c = '(') rest
          else (p.1 ++ run) :: scanBare (run.getLast? = some '(') rest2
      | none => scanBare (c = '(') rest
termination_by s.length
decreasing_by
  all_goals try simp
  all_goals
    (have h1 := matchScheme_len (c :: rest) p.1 p.2 (by rw [hp])
     have h2 := takeUrlChars_len p.2
     rw [hr] at h2
     simp at h1 h2 ⊢
     omega)

/-- `_extract_urls_from_markdown`: the union of the two regex passes
(Python builds a set; only membership is ever used, so the concatenated
match lists model it). -/
def _extract_urls_from_markdown (content : List Char) : List (List Char) :=
  scanMd content ++ scanBare false content

/- ### Extraction lemmas: appending text after a newline boundary -/

theorem isPrefixOf_append_of_isPrefixOf (p a t : List Char)
    (h : p.isPrefixOf a = true) : p.isPrefixOf (a ++ t) = true := by
  rw [List.isPrefixOf_iff_prefix] at h ⊢
  exact h.trans (List.prefix_append a t)

theorem not_isPrefixOf_append (p a t2 : List Char) (hnl : '\n' ∉ p)
    (h : p.isPrefixOf a = false) :
    p.isPrefixOf (a ++ '\n' :: t2) = false := by
  induction p generalizing a with
  | nil => simp [List.isPrefixOf] at h
  | cons pc pr ih =>
    cases a with
    | nil =>
      simp only [List.nil_append, List.isPrefixOf]
      have hpc : pc ≠ '\n' := by
        intro hx
        exact hnl (hx ▸ List.mem_cons_self pc pr)
      have : (pc == '\n') = false := by
        simp [hpc]
      rw [this]
      rfl
    | cons ac as =>
      simp only [List.cons_append, List.isPrefixOf] at h ⊢
      by_cases hpc : (pc == ac) = true
      · rw [hpc] at h ⊢
        simp only [Bool.true_and] at h ⊢
        exact ih as (fun hx => hnl (List.mem_cons_of_mem pc hx)) h
      · rw [Bool.not_eq_true] at hpc
        rw [hpc]
        rfl

theorem takeUrlChars_append_nl (a t2 : List Char) :
    takeUrlChars (a ++ '\n' :: t2) =
      ((takeUrlChars a).1, (takeUrlChars a).2 ++ '\n' :: t2) := by
  induction a with
  | nil =>
    simp only [List.nil_append]
    simp [takeUrlChars, show isUrlChar '\n' = false by decide]
  | cons c rest ih =>
    simp only [List.cons_append]
    rw [takeUrlChars, takeUrlChars]
    by_cases h : isUrlChar c = true
    · rw [h]
      simp only [if_true, ih]
    · rw [Bool.not_eq_true] at h
      rw [h]
      rfl

theorem matchScheme_append_nl_some (a t2 sc r : List Char)
    (h : matchScheme a = some (sc, r)) :
    matchScheme (a ++ '\n' :: t2) = some (sc, r ++ '\n' :: t2) := by
  unfold matchScheme at h ⊢
  by_cases h8 : httpsPrefix.isPrefixOf a = true
  · rw [if_pos h8] at h
    rw [if_pos (isPrefixOf_append_of_isPrefixOf _ _ _ h8)]
    cases h
    have hlen : 8 ≤ a.length := by
      simpa [httpsPrefix, str] using
        (List.isPrefixOf_iff_prefix.mp h8).length_le
    rw [List.drop_append_of_le_length hlen]
  · rw [Bool.not_eq_true] at h8
    rw [h8] at h
    simp only [Bool.false_eq_true, if_false] at h
    by_cases h7 : httpPrefix.isPrefixOf a = true
    · rw [if_pos h7] at h
      cases h
      rw [if_neg (by
        rw [not_isPrefixOf_append httpsPrefix a t2 (by decide) h8]
        simp)]
      rw [if_pos (isPrefixOf_append_of_isPrefixOf _ _ _ h7)]
      have hlen : 7 ≤ a.length := by
        simpa [httpPrefix, str] using
          (List.isPrefixOf_iff_prefix.mp h7).length_le
      rw [List.drop_append_of_le_length hlen]
    · rw [Bool.not_eq_true] at h7
      rw [h7] at h
      cases h

theorem matchScheme_append_nl_none (a t2 : List Char)
    (h : matchScheme a = none) :
    matchScheme (a ++ '\n' :: t2) = none := by
  unfold matchScheme at h ⊢
  by_cases h8 : httpsPrefix.isPrefixOf a = true
  · rw [if_pos h8] at h
    cases h
  · rw [Bool.not_eq_true] at h8
    rw [h8] at h
    simp only [Bool.false_eq_true, if_false] at h
    by_cases h7 : httpPrefix.isPrefixOf a = true
    · rw [if_pos h7] at h
      cases h
    · rw [Bool.not_eq_true] at h7
      rw [h7] at h
      rw [not_isPrefixOf_append httpsPrefix a t2 (by decide) h8,
        not_isPrefixOf_append httpPrefix a t2 (by decide) h7]
      rfl

theorem matchUrlParen_append_nl_some (a t2 u r : List Char)
    (h : matchUrlParen a = some (u, r)) :
    matchUrlParen (a ++ '\n' :: t2) = some (u, r ++ '\n' :: t2) := by
  unfold matchUrlParen at h ⊢
  cases hs : matchScheme a with
  | none => rw [hs] at h; cases h
  | some p =>
    obtain ⟨sc, rest⟩ := p
    rw [hs] at h
    rw [matchScheme_append_nl_some a t2 sc rest hs]
    simp only at h ⊢
    rw [takeUrlChars_append_nl]
    by_cases he : (takeUrlChars rest).1 = []
    · rw [if_pos he] at h
      cases h
    · rw [if_neg he] at h ⊢
      cases hr2 : (takeUrlChars rest).2 with
      | nil => rw [hr2] at h; cases h
      | cons c rest3 =>
        rw [hr2] at h
        simp only at h
        simp only [List.cons_append]
        by_cases hc : c = ')'
        · rw [if_pos hc] at h
          cases h
          rw [if_pos hc]
        · rw [if_neg hc] at h
          cases h

theorem matchUrlParen_append_nl_none (a t2 : List Char)
    (h : matchUrlParen a = none) :
    matchUrlParen (a ++ '\n' :: t2) = none := by
  unfold matchUrlParen at h ⊢
  cases hs : matchScheme a with
  | none => rw [matchScheme_append_nl_none a t2 hs]
  | some p =>
    obtain ⟨sc, rest⟩ := p
    rw [hs] at h
    rw [matchScheme_append_nl_some a t2 sc rest hs]
    simp only at h ⊢
    rw [takeUrlChars_append_nl]
    by_cases he : (takeUrlChars rest).1 = []
    · rw [if_pos he] at h ⊢
    · rw [if_neg he] at h ⊢
      cases hr2 : (takeUrlChars rest).2 with
      | nil =>
        simp only [List.nil_append]
        rw [if_neg (by decide)]
      | cons c rest3 =>
        rw [hr2] at h
        simp only at h
        simp only [List.cons_append]
        by_cases hc : c = ')'
        · rw [if_pos hc] at h
          cases h
        · rw [if_neg hc] at h
          rw [if_neg hc]

theorem matchAfterBracket_append_nl_some (a t2 u r : List Char)
    (h : matchAfterBracket a = some (u, r)) :
    matchAfterBracket (a ++ '\n' :: t2) = some (u, r ++ '\n' :: t2) := by
  cases a with
  | nil => cases h
  | cons c rest =>
    rw [matchAfterBracket] at h
    simp only [List.cons_append]
    rw [matchAfterBracket]
    split at h
    · rename_i hc
      rw [if_pos hc]
      exact matchUrlParen_append_nl_some rest t2 u r h
    · cases h

theorem matchAfterBracket_append_nl_none (a t2 : List Char)
    (h : matchAfterBracket a = none) :
    matchAfterBracket (a ++ '\n' :: t2) = none := by
  cases a with
  | nil =>
    simp only [List.nil_append]
    rw [matchAfterBracket]
    rw [if_neg (by decide)]
  | cons c rest =>
    rw [matchAfterBracket] at h
    simp only [List.cons_append]
    rw [matchAfterBracket]
    split at h
    · rename_i hc
      rw [if_pos hc]
      exact matchUrlParen_append_nl_none rest t2 h
    · rename_i hc
      rw [if_neg hc]

theorem matchInner_append_nl_some (a t2 : List Char) :
    ∀ u r, matchInner a = some (u, r) →
    matchInner (a ++ '\n' :: t2) = some (u, r ++ '\n' :: t2) := by
  induction a with
  | nil => intro u r h; cases h
  | cons c rest ih =>
    intro u r h
    rw [matchInner] at h
    simp only [List.cons_append]
    rw [matchInner]
    by_cases hc : c = ']'
    · rw [if_pos hc] at h ⊢
      cases hb : matchAfterBracket rest with
      | some q =>
        rw [hb] at h
        simp only at h
        cases h
        rw [matchAfterBracket_append_nl_some rest t2 u r hb]
      | none =>
        rw [hb] at h
        simp only at h
        rw [matchAfterBracket_append_nl_none rest t2 hb]
        simp only
        split at h
        · cases h
        · rename_i hn
          rw [if_neg hn]
          exact ih u r h
    · rw [if_neg hc] at h ⊢
      simp only at h ⊢
      split at h
      · cases h
      · rename_i hn
        rw [if_neg hn]
        exact ih u r h

theorem matchInner_append_nl_none (a t2 : List Char)
    (h : matchInner a = none) :
    matchInner (a ++ '\n' :: t2) = none := by
  induction a with
  | nil =>
    simp only [List.nil_append]
    rw [matchInner]
    simp
  | cons c rest ih =>
    rw [matchInner] at h
    simp only [List.cons_append]
    rw [matchInner]
    by_cases hc : c = ']'
    · rw [if_pos hc] at h ⊢
      cases hb : matchAfterBracket rest with
      | some q =>
        rw [hb] at h
        simp only at h
        cases h
      | none =>
        rw [hb] at h
        rw [matchAfterBracket_append_nl_none rest t2 hb]
        simp only at h ⊢
        split at h
        · rename_i hn
          rw [if_pos hn]
        · rename_i hn
          rw [if_neg hn]
          exact ih h
    · rw [if_neg hc] at h ⊢
      simp only at h ⊢
      split at h
      · rename_i hn
        rw [if_pos hn]
      · rename_i hn
        rw [if_neg hn]
        exact ih h

theorem scanMd_cons_nonbracket (c : Char) (s : List Char) (h : c ≠ '[') :
    scanMd (c :: s) = scanMd s := by
  rw [scanMd]
  rw [if_neg h]

theorem scanMd_append_nl (a t2 : List Char) :
    scanMd (a ++ '\n' :: t2) = scanMd a ++ scanMd ('\n' :: t2) := by
  cases a with
  | nil =>
    have h0 : scanMd [] = [] := by rw [scanMd]
    simp [h0]
  | cons c rest =>
    simp only [List.cons_append]
    by_cases hc : c = '['
    · rw [scanMd, if_pos hc]
      rw [scanMd, if_pos hc]
      cases hm : matchInner rest with
      | some r =>
        obtain ⟨u, rr⟩ := r
        rw [matchInner_append_nl_some rest t2 u rr hm]
        simp only
        have hlen := matchInner_len rest u rr hm
        rw [scanMd_append_nl rr t2]
        simp
      | none =>
        rw [matchInner_append_nl_none rest t2 hm]
        simp only
        rw [scanMd_append_nl rest t2]
    · rw [scanMd_cons_nonbracket c _ hc, scanMd_cons_nonbracket c _ hc]
      rw [scanMd_append_nl rest t2]
termination_by a.length
decreasing_by
  all_goals simp
  all_goals omega

theorem scanBare_nl_skip (p : Bool) (t2 : List Char) :
    scanBare p ('\n' :: t2) = scanBare false t2 := by
  rw [scanBare]
  cases p <;> rfl

theorem scanBare_cons_true (c : Char) (rest : List Char) :
    scanBare true (c :: rest) = scanBare (decide (c = '(')) rest := by
  rw [scanBare]
  simp

theorem scanBare_cons_false_none (c : Char) (rest : List Char)
    (hs : matchScheme (c :: rest) = none) :
    scanBare false (c :: rest) = scanBare (decide (c = '(')) rest := by
  rw [scanBare]
  simp only [Bool.false_eq_true, if_false]
  split
  · rename_i p hm
    rw [hs] at hm
    cases hm
  · rfl

theorem scanBare_cons_false_some (c : Char) (rest sc r0 run rest2 : List Char)
    (hs : matchScheme (c :: rest) = some (sc, r0))
    (hr : takeUrlChars r0 = (run, rest2)) :
    scanBare false (c :: rest) =
      if run = [] then scanBare (decide (c = '(')) rest
      else (sc ++ run) :: scanBare (decide (run.getLast? = some '(')) rest2 := by
  rw [scanBare]
  simp only [Bool.false_eq_true, if_false]
  split
  · rename_i p hm
    rw [hs] at hm
    cases hm
    split
    · rename_i hrun0
      dsimp only at hrun0
      rw [hr] at hrun0
      dsimp only at hrun0
      rw [if_pos hrun0]
    · rename_i hrun0
      dsimp only at hrun0 ⊢
      rw [hr] at hrun0 ⊢
      dsimp only at hrun0 ⊢
      rw [if_neg hrun0]
  · rename_i hm
    rw [hs] at hm
    cases hm

theorem scanBare_append_nl (a t2 : List Char) (p : Bool) :
    scanBare p (a ++ '\n' :: t2) = scanBare p a ++ scanBare false t2 := by
  cases a with
  | nil =>
    have h0 : scanBare p [] = [] := by rw [scanBare]
    simp only [List.nil_append, h0, scanBare_nl_skip]
  | cons c rest =>
    have hdec0 : rest.length < (c :: rest).length := by simp
    simp only [List.cons_append]
    cases p with
    | true =>
      rw [scanBare_cons_true, scanBare_cons_true]
      exact scanBare_append_nl rest t2 _
    | false =>
      cases hs : matchScheme (c :: rest) with
      | some p0 =>
        obtain ⟨sc, r0⟩ := p0
        have hs2 := matchScheme_append_nl_some (c :: rest) t2 sc r0 hs
        simp only [List.cons_append] at hs2
        cases hr : takeUrlChars r0 with
        | mk run rest2 =>
          have hu := takeUrlChars_append_nl r0 t2
          rw [hr] at hu
          simp only at hu
          have hdec2 : rest2.length < (c :: rest).length := by
            have h1 := matchScheme_len (c :: rest) sc r0 hs
            have h2 := takeUrlChars_len r0
            rw [hr] at h2
            simp only at h2
            simp at h1 ⊢
            omega
          rw [scanBare_cons_false_some c rest sc r0 run rest2 hs hr,
            scanBare_cons_false_some c (rest ++ '\n' :: t2) sc
              (r0 ++ '\n' :: t2) run (rest2 ++ '\n' :: t2) hs2 hu]
          by_cases hrun : run = []
          · rw [if_pos hrun, if_pos hrun]
            exact scanBare_append_nl rest t2 _
          · rw [if_neg hrun, if_neg hrun]
            rw [scanBare_append_nl rest2 t2 _]
            simp
      | none =>
        have hs2 := matchScheme_append_nl_none (c :: rest) t2 hs
        simp only [List.cons_append] at hs2
        rw [scanBare_cons_false_none c rest hs,
          scanBare_cons_false_none c (rest ++ '\n' :: t2) hs2]
        exact scanBare_append_nl rest t2 _
termination_by a.length
decreasing_by
  all_goals omega

/-- `_extract_urls_from_markdown` splits at a newline boundary: appending
text that begins with a newline preserves all previously extracted URLs
and adds exactly the URLs extracted from the appended part. -/
theorem extract_append_nl (a t2 : List Char) :
    _extract_urls_from_markdown (a ++ '\n' :: t2) =
      scanMd a ++ scanMd ('\n' :: t2) ++
        (scanBare false a ++ scanBare false t2) := by
  unfold _extract_urls_from_markdown
  rw [scanMd_append_nl, scanBare_append_nl]

/-- A URL the markdown-link regex recovers exactly: an `http://` or
`https://` scheme followed by a non-empty run of characters that are
neither whitespace nor `)`. -/
def CleanUrl (u : List Char) : Prop :=
  ∃ w, (u = httpPrefix ++ w ∨ u = httpsPrefix ++ w) ∧ w ≠ [] ∧
    ∀ c ∈ w, isUrlChar c = true

theorem takeUrlChars_run (w Q2 : List Char)
    (hw : ∀ c ∈ w, isUrlChar c = true) :
    takeUrlChars (w ++ ')' :: Q2) = (w, ')' :: Q2) := by
  induction w with
  | nil =>
    simp only [List.nil_append]
    rw [takeUrlChars]
    rw [if_neg (by decide)]
  | cons c w2 ih =>
    simp only [List.cons_append]
    rw [takeUrlChars]
    rw [if_pos (hw c (List.mem_cons_self c w2))]
    rw [ih (fun x hx => hw x (List.mem_cons_of_mem c hx))]

theorem matchScheme_http (rest : List Char) :
    matchScheme (httpPrefix ++ rest) = some (httpPrefix, rest) := by
  unfold matchScheme
  rw [if_neg (by simp [httpsPrefix, httpPrefix, str, List.isPrefixOf])]
  rw [if_pos (isPrefixOf_append_of_isPrefixOf _ _ _
    (by simp [httpPrefix, str, List.isPrefixOf]))]
  simp [httpPrefix, str]

theorem matchScheme_https (rest : List Char) :
    matchScheme (httpsPrefix ++ rest) = some (httpsPrefix, rest) := by
  unfold matchScheme
  rw [if_pos (isPrefixOf_append_of_isPrefixOf _ _ _
    (by simp [httpsPrefix, str, List.isPrefixOf]))]
  simp [httpsPrefix, str]

theorem matchUrlParen_clean (u Q : List Char) (hu : CleanUrl u) :
    matchUrlParen (u ++ ')' :: Q) = some (u, Q) := by
  obtain ⟨w, hSch, hne, hw⟩ := hu
  unfold matchUrlParen
  rcases hSch with h | h
  · subst h
    rw [List.append_assoc]
    rw [matchScheme_http]
    simp only
    rw [takeUrlChars_run w Q hw]
    simp only
    rw [if_neg hne]
    simp
  · subst h
    rw [List.append_assoc]
    rw [matchScheme_https]
    simp only
    rw [takeUrlChars_run w Q hw]
    simp only
    rw [if_neg hne]
    simp

theorem matchInner_title (T rest2 : List Char)
    (hT : ∀ c ∈ T, c ≠ ']' ∧ c ≠ '\n')
    (r : List Char × List Char) (hp : matchUrlParen rest2 = some r) :
    matchInner (T ++ ']' :: '(' :: rest2) = some r := by
  induction T with
  | nil =>
    simp only [List.nil_append]
    rw [matchInner]
    rw [if_pos rfl]
    rw [matchAfterBracket]
    rw [if_pos rfl, hp]
  | cons c T2 ih =>
    simp only [List.cons_append]
    rw [matchInner]
    have hc := hT c (List.mem_cons_self c T2)
    rw [if_neg hc.1]
    simp only
    rw [if_neg hc.2]
    exact ih (fun x hx => hT x (List.mem_cons_of_mem c hx))

theorem scanMd_line (T u Q : List Char)
    (hT : ∀ c ∈ T, c ≠ ']' ∧ c ≠ '\n') (hu : CleanUrl u) :
    u ∈ scanMd (str "## [" ++ T ++ str "](" ++ u ++ ')' :: Q) := by
  have hshape : str "## [" ++ T ++ str "](" ++ u ++ ')' :: Q =
      '#' :: '#' :: ' ' :: '[' :: (T ++ ']' :: '(' :: (u ++ ')' :: Q)) := by
    simp [str]
  rw [hshape]
  rw [scanMd_cons_nonbracket _ _ (by decide),
    scanMd_cons_nonbracket _ _ (by decide),
    scanMd_cons_nonbracket _ _ (by decide)]
  rw [scanMd]
  rw [if_pos rfl]
  have hmi := matchInner_title T (u ++ ')' :: Q) hT (u, Q)
    (matchUrlParen_clean u Q hu)
  split
  · rename_i r hm
    rw [hmi] at hm
    cases hm
    exact List.mem_cons_self u _
  · rename_i hm
    rw [hmi] at hm
    cases hm

/- ### `_append_to_log` -/

/-- Loop state of `_append_to_log`: the growing `existing_urls` set (a
list with the same membership), the accumulated `new_content_blocks`, and
the `added` / `skipped` counters. -/
structure AppendLoop where
  urls : List (List Char)
  blocks : List (List Char)
  added : Nat
  skipped : Nat
  deriving DecidableEq

/-- The item loop of `_append_to_log`: skip items without a URL silently;
skip (counting) items whose trailing-slash-normalized URL equals a
normalized member of `existing_urls`; otherwise render a block, remember
the raw URL, and count the item as added. -/
def appendGo (h2t ch : List Char → List Char) :
    List (List Char) → List (List Char) → Nat → Nat → List Item → AppendLoop
  | urls, blocks, added, skipped, [] => ⟨urls, blocks, added, skipped⟩
  | urls, blocks, added, skipped, it :: rest =>
    match truthyUrl it with
    | none => appendGo h2t ch urls blocks added skipped rest
    | some u =>
      if urls.any (fun e => rstripSlash e = rstripSlash u) then
        appendGo h2t ch urls blocks added (skipped + 1) rest
      else
        appendGo h2t ch (urls ++ [u])
          (blocks ++ [SEPARATOR ++ renderTail h2t ch it u]) (added + 1)
          skipped rest

/-- Python `"\n".join(blocks)`. -/
def joinNl : List (List Char) → List Char
  | [] => []
  | [b] => b
  | b :: bs => b ++ '\n' :: joinNl bs

/-- Result of one `_append_to_log` call: the file afterwards and the
added/skipped counts reported in the returned message. -/
structure AppendResult where
  file : Option (List Char)
  added : Nat
  skipped : Nat
  deriving DecidableEq

/-- `_append_to_log`: read the existing content (empty for an absent
file), extract its URLs, run the item loop, and — only when at least one
new block was produced — append `"\n".join(blocks) + "\n\n"` to the
file. -/
def _append_to_log (h2t ch : List Char → List Char)
    (file : Option (List Char)) (items : List Item) : AppendResult :=
  let existing_content := match file with | none => [] | some c => c
  let existing_urls :=
    match file with
    | none => []
    | some c => _extract_urls_from_markdown c
  let r := appendGo h2t ch existing_urls [] 0 0 items
  if r.blocks = [] then ⟨file, r.added, r.skipped⟩
  else ⟨some (existing_content ++ joinNl r.blocks ++ '\n' :: ['\n']),
    r.added, r.skipped⟩

/-- A clean URL inside a rendered block is always recovered by the
markdown-link pass of `_extract_urls_from_markdown`, wherever the block
sits in the file. -/
theorem url_in_extract (X Y : List Char) (h2t ch : List Char → List Char)
    (it : Item) (u : List Char)
    (hT : ∀ c ∈ _clean_title h2t it.title, c ≠ ']' ∧ c ≠ '\n')
    (hu : CleanUrl u) :
    u ∈ _extract_urls_from_markdown
      (X ++ (SEPARATOR ++ renderTail h2t ch it u) ++ Y) := by
  have hshape : X ++ (SEPARATOR ++ renderTail h2t ch it u) ++ Y =
      X ++ '\n' :: ('-' :: '-' :: '-' :: '\n' ::
        (renderTail h2t ch it u ++ Y)) := by
    simp [SEPARATOR]
  rw [hshape]
  rw [extract_append_nl]
  have h1 : u ∈ scanMd ('\n' :: ('-' :: '-' :: '-' :: '\n' ::
      (renderTail h2t ch it u ++ Y))) := by
    rw [scanMd_cons_nonbracket _ _ (by decide),
      scanMd_cons_nonbracket _ _ (by decide),
      scanMd_cons_nonbracket _ _ (by decide),
      scanMd_cons_nonbracket _ _ (by decide),
      scanMd_cons_nonbracket _ _ (by decide)]
    have hshape2 : renderTail h2t ch it u ++ Y =
        str "## [" ++ _clean_title h2t it.title ++ str "](" ++ u ++
          ')' :: ('\n' ::
            ((((sortKeys it.fields).filter
              (fun kv => kv.1 ≠ str "title" ∧ kv.1 ≠ str "url")).map
                (renderField ch)).flatten ++ Y)) := by
      unfold renderTail
      simp [str]
    rw [hshape2]
    exact scanMd_line _ u _ hT hu
  simp only [List.mem_append]
  left
  right
  exact h1

theorem appendGo_spec (h2t ch : List Char → List Char) :
    ∀ (items : List Item) (urls0 blocks0 : List (List Char)) (a0 s0 : Nat),
    ∃ (adds : List (Item × List Char)) (k : Nat),
      appendGo h2t ch urls0 blocks0 a0 s0 items =
        ⟨urls0 ++ adds.map Prod.snd,
         blocks0 ++ adds.map
           (fun q => SEPARATOR ++ renderTail h2t ch q.1 q.2),
         a0 + adds.length, s0 + k⟩ ∧
      (∀ q ∈ adds, truthyUrl q.1 = some q.2 ∧ q.1 ∈ items) ∧
      (∀ it ∈ items, ∀ u, truthyUrl it = some u →
        ∃ e ∈ urls0 ++ adds.map Prod.snd, rstripSlash e = rstripSlash u) := by
  intro items
  induction items with
  | nil =>
    intro urls0 blocks0 a0 s0
    refine ⟨[], 0, ?_, ?_, ?_⟩
    · simp [appendGo]
    · simp
    · simp
  | cons it rest ih =>
    intro urls0 blocks0 a0 s0
    cases hu : truthyUrl it with
    | none =>
      obtain ⟨adds, k, heq, hq, hcov⟩ := ih urls0 blocks0 a0 s0
      refine ⟨adds, k, ?_, ?_, ?_⟩
      · rw [appendGo, hu]
        exact heq
      · intro q hqin
        exact ⟨(hq q hqin).1, List.mem_cons_of_mem it (hq q hqin).2⟩
      · intro it2 hit2 u2 hu2
        rcases List.mem_cons.mp hit2 with rfl | hit2
        · rw [hu] at hu2
          cases hu2
        · exact hcov it2 hit2 u2 hu2
    | some u =>
      by_cases hd : urls0.any
          (fun e => rstripSlash e = rstripSlash u) = true
      · obtain ⟨adds, k, heq, hq, hcov⟩ := ih urls0 blocks0 a0 (s0 + 1)
        refine ⟨adds, k + 1, ?_, ?_, ?_⟩
        · rw [appendGo, hu]
          simp only [hd, if_pos]
          rw [heq]
          have : s0 + 1 + k = s0 + (k + 1) := by omega
          rw [this]
        · intro q hqin
          exact ⟨(hq q hqin).1, List.mem_cons_of_mem it (hq q hqin).2⟩
        · intro it2 hit2 u2 hu2
          rcases List.mem_cons.mp hit2 with rfl | hit2
          · rw [hu] at hu2
            cases hu2
            rw [List.any_eq_true] at hd
            obtain ⟨e, he, hre⟩ := hd
            exact ⟨e, List.mem_append_left _ he, of_decide_eq_true hre⟩
          · exact hcov it2 hit2 u2 hu2
      · obtain ⟨adds, k, heq, hq, hcov⟩ :=
          ih (urls0 ++ [u])
            (blocks0 ++ [SEPARATOR ++ renderTail h2t ch it u]) (a0 + 1) s0
        refine ⟨(it, u) :: adds, k, ?_, ?_, ?_⟩
        · rw [appendGo, hu]
          simp only [Bool.not_eq_true] at hd
          simp only [hd, Bool.false_eq_true, if_false]
          rw [heq]
          simp only [List.map_cons, List.append_assoc, List.singleton_append,
            List.length_cons]
          have : a0 + 1 + adds.length = a0 + (adds.length + 1) := by omega
          rw [this]
        · intro q hqin
          rcases List.mem_cons.mp hqin with rfl | hqin
          · exact ⟨hu, List.mem_cons_self it rest⟩
          · exact ⟨(hq q hqin).1, List.mem_cons_of_mem it (hq q hqin).2⟩
        · intro it2 hit2 u2 hu2
          rcases List.mem_cons.mp hit2 with rfl | hit2
          · rw [hu] at hu2
            cases hu2
            refine ⟨u, ?_, rfl⟩
            simp
          · obtain ⟨e, he, hre⟩ := hcov it2 hit2 u2 hu2
            refine ⟨e, ?_, hre⟩
            simp only [List.append_assoc, List.singleton_append] at he
            simpa using he

theorem appendGo_all_dup (h2t ch : List Char → List Char) :
    ∀ (items : List Item) (urls0 : List (List Char)) (s0 : Nat),
    (∀ it ∈ items, ∀ u, truthyUrl it = some u →
      ∃ e ∈ urls0, rstripSlash e = rstripSlash u) →
    ∃ k, appendGo h2t ch urls0 [] 0 s0 items = ⟨urls0, [], 0, s0 + k⟩ := by
  intro items
  induction items with
  | nil =>
    intro urls0 s0 _
    exact ⟨0, by simp [appendGo]⟩
  | cons it rest ih =>
    intro urls0 s0 hdup
    cases hu : truthyUrl it with
    | none =>
      obtain ⟨k, hk⟩ := ih urls0 s0
        (fun it2 hit2 u2 hu2 => hdup it2 (List.mem_cons_of_mem it hit2) u2 hu2)
      refine ⟨k, ?_⟩
      rw [appendGo, hu]
      exact hk
    | some u =>
      obtain ⟨e, he, hre⟩ := hdup it (List.mem_cons_self it rest) u hu
      have hany : urls0.any (fun e => rstripSlash e = rstripSlash u) = true := by
        rw [List.any_eq_true]
        exact ⟨e, he, decide_eq_true hre⟩
      obtain ⟨k, hk⟩ := ih urls0 (s0 + 1)
        (fun it2 hit2 u2 hu2 => hdup it2 (List.mem_cons_of_mem it hit2) u2 hu2)
      refine ⟨k + 1, ?_⟩
      rw [appendGo, hu]
      simp only [hany, if_pos]
      rw [hk]
      have : s0 + 1 + k = s0 + (k + 1) := by omega
      rw [this]

theorem joinNl_cons_cons (a z : List Char) (zs : List (List Char)) :
    joinNl (a :: z :: zs) = a ++ '\n' :: joinNl (z :: zs) := rfl

theorem joinNl_mem_decompose (blocks : List (List Char)) (b : List Char)
    (hb : b ∈ blocks) :
    ∃ pre post, joinNl blocks ++ '\n' :: ['\n'] = pre ++ b ++ post := by
  obtain ⟨l1, l2, rfl⟩ := List.append_of_mem hb
  induction l1 with
  | nil =>
    cases l2 with
    | nil => exact ⟨[], '\n' :: ['\n'], by simp [joinNl]⟩
    | cons z zs =>
      refine ⟨[], '\n' :: joinNl (z :: zs) ++ '\n' :: ['\n'], ?_⟩
      rw [List.nil_append, joinNl_cons_cons]
      simp
  | cons a l1x ih =>
    obtain ⟨pre, post, hpp⟩ := ih (by simp)
    have hne : l1x ++ b :: l2 ≠ [] := by simp
    cases hl : l1x ++ b :: l2 with
    | nil => exact absurd hl hne
    | cons z zs =>
      refine ⟨a ++ '\n' :: pre, post, ?_⟩
      rw [List.cons_append, hl, joinNl_cons_cons, ← hl]
      rw [List.append_assoc a, List.cons_append, hpp]
      simp

theorem joinNl_sep_head (t0 : List Char) (bs : List (List Char)) :
    ∃ Z, joinNl ((SEPARATOR ++ t0) :: bs) ++ '\n' :: ['\n'] = '\n' :: Z := by
  cases bs with
  | nil =>
    refine ⟨'-' :: '-' :: '-' :: '\n' :: (t0 ++ '\n' :: ['\n']), ?_⟩
    simp [joinNl, SEPARATOR]
  | cons z zs =>
    refine ⟨'-' :: '-' :: '-' :: '\n' ::
      (t0 ++ '\n' :: joinNl (z :: zs) ++ '\n' :: ['\n']), ?_⟩
    rw [joinNl_cons_cons]
    simp [SEPARATOR]

theorem extract_covers (h2t ch : List Char → List Char) (C : List Char)
    (items : List Item) (E : List (List Char))
    (adds : List (Item × List Char))
    (hq : ∀ q ∈ adds, truthyUrl q.1 = some q.2 ∧ q.1 ∈ items)
    (hitems : ∀ it ∈ items,
      truthyUrl it = none ∨
      ∃ u, truthyUrl it = some u ∧ CleanUrl u ∧
        (∀ c ∈ _clean_title h2t it.title, c ≠ ']' ∧ c ≠ '\n'))
    (hcov : ∀ it ∈ items, ∀ u, truthyUrl it = some u →
      ∃ e ∈ E ++ adds.map Prod.snd, rstripSlash e = rstripSlash u)
    (hEC : ∀ e ∈ E, e ∈ _extract_urls_from_markdown C)
    (hadds : adds ≠ []) :
    ∀ it ∈ items, ∀ u, truthyUrl it = some u →
      ∃ e ∈ _extract_urls_from_markdown
        (C ++ joinNl (adds.map
          (fun q => SEPARATOR ++ renderTail h2t ch q.1 q.2)) ++
          '\n' :: ['\n']),
        rstripSlash e = rstripSlash u := by
  intro it hit u hu
  obtain ⟨e, he, hre⟩ := hcov it hit u hu
  refine ⟨e, ?_, hre⟩
  rcases List.mem_append.mp he with heE | headd
  · -- e was already in the pre-existing content
    have heC := hEC e heE
    obtain ⟨q0, adds2, hadds2⟩ := List.exists_cons_of_ne_nil hadds
    have hblocks : adds.map
        (fun q => SEPARATOR ++ renderTail h2t ch q.1 q.2) =
        (SEPARATOR ++ renderTail h2t ch q0.1 q0.2) ::
          adds2.map (fun q => SEPARATOR ++ renderTail h2t ch q.1 q.2) := by
      rw [hadds2]
      simp
    obtain ⟨Z, hZ⟩ := joinNl_sep_head (renderTail h2t ch q0.1 q0.2)
      (adds2.map (fun q => SEPARATOR ++ renderTail h2t ch q.1 q.2))
    rw [hblocks, List.append_assoc, hZ]
    rw [extract_append_nl]
    unfold _extract_urls_from_markdown at heC
    rcases List.mem_append.mp heC with h1 | h2
    · simp only [List.mem_append]
      left
      left
      exact h1
    · simp only [List.mem_append]
      right
      left
      exact h2
  · -- e is the URL of an item the first call appended
    obtain ⟨q, hqin, hq2⟩ := List.mem_map.mp headd
    obtain ⟨hqu, hqitems⟩ := hq q hqin
    subst hq2
    rcases hitems q.1 hqitems with hnone | ⟨u2, hu2, hclean, hTq⟩
    · rw [hnone] at hqu
      cases hqu
    · have h12 : u2 = q.2 := by
        rw [hu2] at hqu
        exact Option.some.inj hqu
      subst h12
      have hbmem : (SEPARATOR ++ renderTail h2t ch q.1 q.2) ∈
          adds.map (fun q => SEPARATOR ++ renderTail h2t ch q.1 q.2) := by
        rw [List.mem_map]
        exact ⟨q, hqin, rfl⟩
      obtain ⟨pre, post, hpp⟩ := joinNl_mem_decompose _ _ hbmem
      rw [List.append_assoc, hpp]
      rw [show C ++ (pre ++ (SEPARATOR ++ renderTail h2t ch q.1 q.2) ++ post) =
        (C ++ pre) ++ (SEPARATOR ++ renderTail h2t ch q.1 q.2) ++ post by
        simp [List.append_assoc]]
      exact url_in_extract (C ++ pre) post h2t ch q.1 q.2 hTq hclean

/-- Definitional unfolding of `_append_to_log`. -/
theorem append_to_log_eq (h2t ch : List Char → List Char)
    (file : Option (List Char)) (items : List Item) :
    _append_to_log h2t ch file items =
      (let r := appendGo h2t ch
        (match file with
         | none => []
         | some c => _extract_urls_from_markdown c) [] 0 0 items
       if r.blocks = []
       then ⟨file, r.added, r.skipped⟩
       else ⟨some ((match file with | none => [] | some c => c) ++
         joinNl r.blocks ++ '\n' :: ['\n']), r.added, r.skipped⟩) := rfl

/-- When every URL-bearing item normalizes to an already-extracted URL,
`_append_to_log` skips everything and leaves the file untouched. -/
theorem append_to_log_all_dup (h2t ch : List Char → List Char)
    (c2 : List Char) (items : List Item)
    (hdup : ∀ it ∈ items, ∀ u, truthyUrl it = some u →
      ∃ e ∈ _extract_urls_from_markdown c2,
        rstripSlash e = rstripSlash u) :
    ∃ k2, _append_to_log h2t ch (some c2) items = ⟨some c2, 0, k2⟩ := by
  obtain ⟨k2, hk2⟩ := appendGo_all_dup h2t ch items
    (_extract_urls_from_markdown c2) 0 hdup
  refine ⟨k2, ?_⟩
  rw [append_to_log_eq]
  simp only
  rw [hk2]
  simp

/-- C1 (amended): appending the same item list twice is idempotent for
items that either lack a URL or carry a regex-recoverable (clean) URL and
a cleaned title free of `]` and newline characters: the second call skips
every URL-bearing item as a duplicate and writes nothing. -/
theorem append_idempotent_clean (h2t ch : List Char → List Char)
    (file : Option (List Char)) (items : List Item)
    (hitems : ∀ it ∈ items,
      truthyUrl it = none ∨
      ∃ u, truthyUrl it = some u ∧ CleanUrl u ∧
        (∀ c ∈ _clean_title h2t it.title, c ≠ ']' ∧ c ≠ '\n')) :
    (_append_to_log h2t ch (_append_to_log h2t ch file items).file
      items).file = (_append_to_log h2t ch file items).file ∧
    (_append_to_log h2t ch (_append_to_log h2t ch file items).file
      items).added = 0 := by
  cases file with
  | none =>
    obtain ⟨adds, k, heq, hq, hcov⟩ := appendGo_spec h2t ch items [] [] 0 0
    simp only [List.nil_append, Nat.zero_add] at heq
    by_cases hadds : adds = []
    · subst hadds
      simp only [List.map_nil, List.length_nil] at heq
      have hr1 : _append_to_log h2t ch none items = ⟨none, 0, k⟩ := by
        rw [append_to_log_eq]
        simp only
        rw [heq]
        simp
      constructor
      · rw [hr1]
        show (_append_to_log h2t ch none items).file = none
        rw [hr1]
      · rw [hr1]
        show (_append_to_log h2t ch none items).added = 0
        rw [hr1]
    · have hbne : adds.map
          (fun q => SEPARATOR ++ renderTail h2t ch q.1 q.2) ≠ [] := by
        simpa using hadds
      have hr1 : _append_to_log h2t ch none items =
          ⟨some (joinNl (adds.map
              (fun q => SEPARATOR ++ renderTail h2t ch q.1 q.2)) ++
            '\n' :: ['\n']), adds.length, k⟩ := by
        rw [append_to_log_eq]
        simp only
        rw [heq]
        simp [hbne]
      have hcov2 := extract_covers h2t ch [] items [] adds hq hitems hcov
        (by simp) hadds
      simp only [List.nil_append] at hcov2
      obtain ⟨k2, hr2⟩ := append_to_log_all_dup h2t ch
        (joinNl (adds.map
          (fun q => SEPARATOR ++ renderTail h2t ch q.1 q.2)) ++
          '\n' :: ['\n']) items hcov2
      constructor
      · rw [hr1]
        show (_append_to_log h2t ch
          (some (joinNl (adds.map
            (fun q => SEPARATOR ++ renderTail h2t ch q.1 q.2)) ++
            '\n' :: ['\n'])) items).file = _
        rw [hr2]
      · rw [hr1]
        show (_append_to_log h2t ch
          (some (joinNl (adds.map
            (fun q => SEPARATOR ++ renderTail h2t ch q.1 q.2)) ++
            '\n' :: ['\n'])) items).added = 0
        rw [hr2]
  | some c =>
    obtain ⟨adds, k, heq, hq, hcov⟩ := appendGo_spec h2t ch items
      (_extract_urls_from_markdown c) [] 0 0
    simp only [List.nil_append, Nat.zero_add] at heq
    by_cases hadds : adds = []
    · subst hadds
      simp only [List.map_nil, List.length_nil, List.append_nil] at heq
      have hr1 : _append_to_log h2t ch (some c) items = ⟨some c, 0, k⟩ := by
        rw [append_to_log_eq]
        simp only
        rw [heq]
        simp
      constructor
      · rw [hr1]
        show (_append_to_log h2t ch (some c) items).file = some c
        rw [hr1]
      · rw [hr1]
        show (_append_to_log h2t ch (some c) items).added = 0
        rw [hr1]
    · have hbne : adds.map
          (fun q => SEPARATOR ++ renderTail h2t ch q.1 q.2) ≠ [] := by
        simpa using hadds
      have hr1 : _append_to_log h2t ch (some c) items =
          ⟨some (c ++ joinNl (adds.map
              (fun q => SEPARATOR ++ renderTail h2t ch q.1 q.2)) ++
            '\n' :: ['\n']), adds.length, k⟩ := by
        rw [append_to_log_eq]
        simp only
        rw [heq]
        simp [hbne]
      have hcov2 := extract_covers h2t ch c items
        (_extract_urls_from_markdown c) adds hq hitems hcov
        (fun e he => he) hadds
      obtain ⟨k2, hr2⟩ := append_to_log_all_dup h2t ch
        (c ++ joinNl (adds.map
          (fun q => SEPARATOR ++ renderTail h2t ch q.1 q.2)) ++
          '\n' :: ['\n']) items (by
            intro it hit u hu
            obtain ⟨e, he, hre⟩ := hcov2 it hit u hu
            exact ⟨e, by simpa [List.append_assoc] using he, hre⟩)
      constructor
      · rw [hr1]
        show (_append_to_log h2t ch
          (some (c ++ joinNl (adds.map
            (fun q => SEPARATOR ++ renderTail h2t ch q.1 q.2)) ++
            '\n' :: ['\n'])) items).file = _
        rw [hr2]
      · rw [hr1]
        show (_append_to_log h2t ch
          (some (c ++ joinNl (adds.map
            (fun q => SEPARATOR ++ renderTail h2t ch q.1 q.2)) ++
            '\n' :: ['\n'])) items).added = 0
        rw [hr2]

/-- C1 (counterexample): for an item whose URL does not match the
extraction regex (here the URL `"u"`, with no `http(s)://` scheme), the
second `_append_to_log` call does not recognise the stored entry as a
duplicate: it appends the block again, so the file content differs from
the single-call content and the claim "calling append twice yields the
same file content as calling it once" fails. -/
theorem append_idempotent_counterexample :
    (_append_to_log id id
      (_append_to_log id id none
        [⟨some (str "u"), some (str "T"), []⟩]).file
      [⟨some (str "u"), some (str "T"), []⟩]).file ≠
    (_append_to_log id id none
      [⟨some (str "u"), some (str "T"), []⟩]).file ∧
    (_append_to_log id id
      (_append_to_log id id none
        [⟨some (str "u"), some (str "T"), []⟩]).file
      [⟨some (str "u"), some (str "T"), []⟩]).added = 1 := by
  have h1 : _append_to_log id id none
      [⟨some (str "u"), some (str "T"), []⟩] =
      ⟨some (str "\n---\n## [T](u)\n\n\n"), 1, 0⟩ := by decide
  have hext : _extract_urls_from_markdown (str "\n---\n## [T](u)\n\n\n") =
      [] := by
    simp [_extract_urls_from_markdown, scanMd, scanBare, matchInner,
      matchAfterBracket, matchUrlParen, matchScheme, takeUrlChars, isUrlChar,
      pyIsSpace, httpPrefix, httpsPrefix, str, List.isPrefixOf]
  constructor
  · rw [h1]
    show (_append_to_log id id (some (str "\n---\n## [T](u)\n\n\n"))
      [⟨some (str "u"), some (str "T"), []⟩]).file ≠
      some (str "\n---\n## [T](u)\n\n\n")
    rw [append_to_log_eq]
    simp only
    rw [hext]
    decide
  · rw [h1]
    show (_append_to_log id id (some (str "\n---\n## [T](u)\n\n\n"))
      [⟨some (str "u"), some (str "T"), []⟩]).added = 1
    rw [append_to_log_eq]
    simp only
    rw [hext]
    decide

/-- Witness for C1 at a concrete clean item and an absent file. -/
theorem append_idempotent_clean_witness :
    (∀ it ∈ [(⟨some (str "http://x.com/a"), some (str "T"), []⟩ : Item)],
      truthyUrl it = none ∨
      ∃ u, truthyUrl it = some u ∧ CleanUrl u ∧
        (∀ c ∈ _clean_title id it.title, c ≠ ']' ∧ c ≠ '\n')) ∧
    ((_append_to_log id id
      (_append_to_log id id none
        [⟨some (str "http://x.com/a"), some (str "T"), []⟩]).file
      [⟨some (str "http://x.com/a"), some (str "T"), []⟩]).file =
      (_append_to_log id id none
        [⟨some (str "http://x.com/a"), some (str "T"), []⟩]).file) ∧
    ((_append_to_log id id
      (_append_to_log id id none
        [⟨some (str "http://x.com/a"), some (str "T"), []⟩]).file
      [⟨some (str "http://x.com/a"), some (str "T"), []⟩]).added = 0) :=
  have hyp : ∀ it ∈ [(⟨some (str "http://x.com/a"), some (str "T"),
      []⟩ : Item)],
      truthyUrl it = none ∨
      ∃ u, truthyUrl it = some u ∧ CleanUrl u ∧
        (∀ c ∈ _clean_title id it.title, c ≠ ']' ∧ c ≠ '\n') := by
    intro it hit
    rw [List.mem_singleton] at hit
    subst hit
    right
    exact ⟨str "http://x.com/a", rfl,
      ⟨str "x.com/a", Or.inl (by decide), by decide, by decide⟩, by decide⟩
  ⟨hyp,
    (append_idempotent_clean id id none
      [⟨some (str "http://x.com/a"), some (str "T"), []⟩] hyp).1,
    (append_idempotent_clean id id none
      [⟨some (str "http://x.com/a"), some (str "T"), []⟩] hyp).2⟩

theorem dropWhile_slash_replicate (n : Nat) (x : List Char) :
    (List.replicate n '/' ++ x).dropWhile (fun c => c = '/') =
      x.dropWhile (fun c => c = '/') := by
  induction n with
  | zero => simp
  | succ n ih =>
    rw [List.replicate_succ, List.cons_append, List.dropWhile_cons]
    simp [ih]

theorem rstripSlash_append_slashes (l : List Char) (n : Nat) :
    rstripSlash (l ++ List.replicate n '/') = rstripSlash l := by
  unfold rstripSlash
  rw [List.reverse_append, List.reverse_replicate,
    dropWhile_slash_replicate]

/-- C7 (amended): `_append_to_log` treats two URLs as duplicates when
they are equal after stripping ALL trailing slashes (`url.rstrip("/")`),
not just a single one: appending an item with a clean URL `u1` and then
an item with any URL `u2` with `u1.rstrip("/") == u2.rstrip("/")` —
including `u2` differing by several trailing slashes — leaves exactly the
one stored entry, skipping the second item. -/
theorem append_trailing_slash_amended (h2t ch : List Char → List Char)
    (it1 it2 : Item) (u1 u2 : List Char)
    (h1 : truthyUrl it1 = some u1) (hclean : CleanUrl u1)
    (hT : ∀ c ∈ _clean_title h2t it1.title, c ≠ ']' ∧ c ≠ '\n')
    (h2 : truthyUrl it2 = some u2)
    (h12 : rstripSlash u1 = rstripSlash u2) :
    (∀ (l : List Char) (n : Nat),
      rstripSlash (l ++ List.replicate n '/') = rstripSlash l) ∧
    _append_to_log h2t ch none [it1] =
      ⟨some ((SEPARATOR ++ renderTail h2t ch it1 u1) ++ '\n' :: ['\n']),
        1, 0⟩ ∧
    _append_to_log h2t ch
      (some ((SEPARATOR ++ renderTail h2t ch it1 u1) ++ '\n' :: ['\n']))
      [it2] =
      ⟨some ((SEPARATOR ++ renderTail h2t ch it1 u1) ++ '\n' :: ['\n']),
        0, 1⟩ := by
  refine ⟨rstripSlash_append_slashes, ?_, ?_⟩
  · rw [append_to_log_eq]
    simp only
    rw [appendGo, h1]
    simp only [List.any_nil, Bool.false_eq_true, if_false, List.nil_append]
    rw [appendGo]
    simp [joinNl]
  · have hu1mem : u1 ∈ _extract_urls_from_markdown
        ((SEPARATOR ++ renderTail h2t ch it1 u1) ++ '\n' :: ['\n']) := by
      have := url_in_extract [] ('\n' :: ['\n']) h2t ch it1 u1 hT hclean
      simpa using this
    rw [append_to_log_eq]
    simp only
    rw [appendGo, h2]
    simp only
    have hany : (_extract_urls_from_markdown
        ((SEPARATOR ++ renderTail h2t ch it1 u1) ++ '\n' :: ['\n'])).any
        (fun e => rstripSlash e = rstripSlash u2) = true := by
      rw [List.any_eq_true]
      exact ⟨u1, hu1mem, decide_eq_true (h12 ▸ rfl)⟩
    rw [hany]
    simp only [if_pos]
    rw [appendGo]
    simp

/-- C7 (counterexample): a URL differing by MORE than one trailing slash
IS identified with the stored one: after appending
`url = "http://x.com/a"`, appending `url = "http://x.com/a//"` is
skipped as a duplicate (file unchanged, 0 added, 1 skipped), contradicting
the single-trailing-slash reading of the claim. -/
theorem append_trailing_slash_counterexample :
    (_append_to_log id id none
      [⟨some (str "http://x.com/a"), some (str "T"), []⟩] =
      ⟨some (str "\n---\n## [T](http://x.com/a)\n\n\n"), 1, 0⟩) ∧
    (_append_to_log id id
      (some (str "\n---\n## [T](http://x.com/a)\n\n\n"))
      [⟨some (str "http://x.com/a//"), some (str "T"), []⟩] =
      ⟨some (str "\n---\n## [T](http://x.com/a)\n\n\n"), 0, 1⟩) := by
  constructor
  · decide
  · have hext : _extract_urls_from_markdown
        (str "\n---\n## [T](http://x.com/a)\n\n\n") =
        [str "http://x.com/a"] := by
      simp [_extract_urls_from_markdown, scanMd, scanBare, matchInner,
        matchAfterBracket, matchUrlParen, matchScheme, takeUrlChars,
        isUrlChar, pyIsSpace, httpPrefix, httpsPrefix, str, List.isPrefixOf]
    rw [append_to_log_eq]
    simp only
    rw [hext]
    decide

/-- Witness for C7: the spec's own example, `"http://x.com/a"` then
`"http://x.com/a/"`, with a concrete clean URL. -/
theorem append_trailing_slash_amended_witness :
    (truthyUrl ⟨some (str "http://x.com/a"), some (str "T"), []⟩ =
      some (str "http://x.com/a")) ∧
    CleanUrl (str "http://x.com/a") ∧
    (∀ c ∈ _clean_title id (some (str "T")), c ≠ ']' ∧ c ≠ '\n') ∧
    (truthyUrl ⟨some (str "http://x.com/a/"), some (str "T"), []⟩ =
      some (str "http://x.com/a/")) ∧
    (rstripSlash (str "http://x.com/a") = rstripSlash (str "http://x.com/a/")) ∧
    (_append_to_log id id
      (some ((SEPARATOR ++ renderTail id id
        ⟨some (str "http://x.com/a"), some (str "T"), []⟩
        (str "http://x.com/a")) ++ '\n' :: ['\n']))
      [⟨some (str "http://x.com/a/"), some (str "T"), []⟩] =
      ⟨some ((SEPARATOR ++ renderTail id id
        ⟨some (str "http://x.com/a"), some (str "T"), []⟩
        (str "http://x.com/a")) ++ '\n' :: ['\n']), 0, 1⟩) :=
  ⟨rfl,
    ⟨str "x.com/a", Or.inl (by decide), by decide, by decide⟩,
    by decide, rfl, by decide,
    (append_trailing_slash_amended id id
      ⟨some (str "http://x.com/a"), some (str "T"), []⟩
      ⟨some (str "http://x.com/a/"), some (str "T"), []⟩
      (str "http://x.com/a") (str "http://x.com/a/") rfl
      ⟨str "x.com/a", Or.inl (by decide), by decide, by decide⟩
      (by decide) rfl (by decide)).2.2⟩

/- ### Separator algebra for `get_raw_item_count` (C9) -/

/-- `t` contains no occurrence of the separator: no suffix of `t` starts
with it. -/
def SepFree (t : List Char) : Prop :=
  ∀ s, s <:+ t → SEPARATOR.isPrefixOf s = false

theorem sepFree_tail (c : Char) (t : List Char) (h : SepFree (c :: t)) :
    SepFree t :=
  fun s hs => h s (hs.trans (List.suffix_cons c t))

theorem isPrefixOf_append_of_le (p s x : List Char)
    (h : p.length ≤ s.length) :
    p.isPrefixOf (s ++ x) = p.isPrefixOf s := by
  induction p generalizing s with
  | nil => simp [List.isPrefixOf]
  | cons pc pr ih =>
    cases s with
    | nil => simp at h
    | cons sc sr =>
      simp only [List.cons_append, List.isPrefixOf]
      rw [List.append_eq, ih sr (by simpa using h)]

theorem exists_concat_of_getLast (s : List Char) (c : Char)
    (h : s.getLast? = some c) : ∃ s2, s = s2 ++ [c] := by
  induction s with
  | nil => cases h
  | cons a t ih =>
    cases t with
    | nil =>
      refine ⟨[], ?_⟩
      have : a = c := by
        simpa using h
      rw [this]
      rfl
    | cons b t2 =>
      have h2 : (b :: t2).getLast? = some c := by
        rw [← h]
        rfl
      obtain ⟨s2, hs2⟩ := ih h2
      exact ⟨a :: s2, by rw [List.cons_append, ← hs2]⟩

theorem sep_not_prefix_boundary (s X : List Char)
    (hlast : s.getLast? = some '\n')
    (hnp : SEPARATOR.isPrefixOf s = false) :
    SEPARATOR.isPrefixOf (s ++ '\n' :: X) = false := by
  obtain ⟨s2, rfl⟩ := exists_concat_of_getLast s '\n' hlast
  rcases s2 with _ | ⟨a, _ | ⟨b, _ | ⟨c2, _ | ⟨d, s3⟩⟩⟩⟩
  · simp [SEPARATOR, List.isPrefixOf]
  · simp [SEPARATOR, List.isPrefixOf]
  · simp [SEPARATOR, List.isPrefixOf]
  · simp [SEPARATOR, List.isPrefixOf]
  · rw [isPrefixOf_append_of_le _ _ _ (by simp [SEPARATOR])]
    exact hnp

theorem suffix_concat_cases (s t : List Char) (x : Char)
    (h : s <:+ t ++ [x]) :
    s = [] ∨ ∃ s2, s2 <:+ t ∧ s = s2 ++ [x] := by
  rcases eq_or_ne s [] with rfl | hne
  · exact Or.inl rfl
  · right
    obtain ⟨p, hp⟩ := h
    have hlast : s.getLast? = some x := by
      have h1 : (p ++ s).getLast? = s.getLast? :=
        List.getLast?_append_of_ne_nil p hne
      rw [hp] at h1
      rw [← h1]
      simp
    obtain ⟨s2, rfl⟩ := exists_concat_of_getLast s x hlast
    refine ⟨s2, ?_, rfl⟩
    rw [← List.append_assoc] at hp
    have := List.append_cancel_right hp
    exact ⟨p, this⟩

theorem sepFree_append_nl (t : List Char) (hfree : SepFree t)
    (hend : t.getLast? = some '\n') : SepFree (t ++ ['\n']) := by
  intro s hs
  rcases suffix_concat_cases s t '\n' hs with rfl | ⟨s2, hs2, rfl⟩
  · rfl
  · rcases eq_or_ne s2 [] with rfl | hne
    · decide
    · have hlast2 : s2.getLast? = some '\n' := by
        obtain ⟨p, hp⟩ := hs2
        have h1 : (p ++ s2).getLast? = s2.getLast? :=
          List.getLast?_append_of_ne_nil p hne
        rw [hp] at h1
        rw [← h1, hend]
      have := sep_not_prefix_boundary s2 [] hlast2 (hfree s2 hs2)
      simpa using this

theorem splitSep_nil : splitSep [] = [[]] := by
  rw [splitSep]
  rfl

theorem splitSep_sep_head (r : List Char) :
    splitSep (SEPARATOR ++ r) = [] :: splitSep r := by
  rw [splitSep.eq_def]
  rw [if_pos (isPrefixOf_append_of_isPrefixOf _ _ _ (by decide))]
  simp [SEPARATOR]

theorem splitSep_cons_nosep (c : Char) (rest : List Char)
    (h : SEPARATOR.isPrefixOf (c :: rest) = false) :
    splitSep (c :: rest) =
      match splitSep rest with
      | [] => [[c]]
      | x :: xs => (c :: x) :: xs := by
  rw [splitSep]
  rw [if_neg (by simp [h])]

theorem splitSep_ne_nil (s : List Char) : splitSep s ≠ [] := by
  rw [splitSep.eq_def]
  split
  · simp
  · split
    · simp
    · split <;> simp

theorem splitSep_of_sepFree (t : List Char) (hfree : SepFree t) :
    splitSep t = [t] := by
  induction t with
  | nil => exact splitSep_nil
  | cons c t2 ih =>
    rw [splitSep_cons_nosep c t2 (hfree (c :: t2) (List.suffix_refl _))]
    rw [ih (sepFree_tail c t2 hfree)]

theorem splitSep_through (t : List Char) (hfree : SepFree t)
    (hend : t = [] ∨ t.getLast? = some '\n') (r : List Char) :
    splitSep (t ++ (SEPARATOR ++ r)) = t :: splitSep r := by
  induction t with
  | nil =>
    simp only [List.nil_append]
    exact splitSep_sep_head r
  | cons c t2 ih =>
    have hendc : (c :: t2).getLast? = some '\n' := by
      rcases hend with h | h
      · cases h
      · exact h
    have hnp : SEPARATOR.isPrefixOf ((c :: t2) ++ (SEPARATOR ++ r)) =
        false := by
      have := sep_not_prefix_boundary (c :: t2)
        ('-' :: '-' :: '-' :: '\n' :: r) hendc
        (hfree (c :: t2) (List.suffix_refl _))
      simpa [SEPARATOR] using this
    rw [List.cons_append]
    rw [splitSep_cons_nosep c (t2 ++ (SEPARATOR ++ r)) (by
      simpa using hnp)]
    have hend2 : t2 = [] ∨ t2.getLast? = some '\n' := by
      cases t2 with
      | nil => exact Or.inl rfl
      | cons b t3 =>
        right
        rw [← hendc]
        rfl
    rw [ih (sepFree_tail c t2 hfree) hend2]

theorem splitSep_length_eq (s : List Char) :
    (splitSep s).length = countSep s + 1 := by
  rw [splitSep.eq_def, countSep.eq_def]
  by_cases h : SEPARATOR.isPrefixOf s = true
  · rw [if_pos h, if_pos h]
    have hp := List.isPrefixOf_iff_prefix.mp h
    have h5 : 5 ≤ s.length := by simpa [SEPARATOR] using hp.length_le
    have ih := splitSep_length_eq (s.drop 5)
    simp [ih]
  · rw [if_neg h, if_neg h]
    cases s with
    | nil => rfl
    | cons c rest =>
      simp only
      have ih := splitSep_length_eq rest
      split
      · rename_i heq
        rw [heq] at ih
        simp at ih
      · rename_i x xs heq
        rw [heq] at ih
        simpa using ih
termination_by s.length
decreasing_by
  · have hp := List.isPrefixOf_iff_prefix.mp h
    have h5 : 5 ≤ s.length := by simpa [SEPARATOR] using hp.length_le
    simp
    omega
  all_goals simp

/-- The canonical shape of a raw log built by `_append_to_log`: each chunk
preceded by one separator. -/
def sepChain : List (List Char) → List Char
  | [] => []
  | t :: ts => SEPARATOR ++ t ++ sepChain ts

theorem sepChain_append (a b : List (List Char)) :
    sepChain (a ++ b) = sepChain a ++ sepChain b := by
  induction a with
  | nil => simp [sepChain]
  | cons t ts ih => simp [sepChain, ih]

theorem splitSep_chain_aux : ∀ (ts : List (List Char)),
    (∀ t ∈ ts, SepFree t ∧ t.getLast? = some '\n') →
    ∀ t0, SepFree t0 → t0.getLast? = some '\n' →
    splitSep (t0 ++ sepChain ts) = t0 :: ts := by
  intro ts
  induction ts with
  | nil =>
    intro _ t0 hf _
    rw [show sepChain [] = ([] : List Char) from rfl, List.append_nil]
    exact splitSep_of_sepFree t0 hf
  | cons t ts2 ih =>
    intro h t0 hf he
    have hch : t0 ++ sepChain (t :: ts2) =
        t0 ++ (SEPARATOR ++ (t ++ sepChain ts2)) := by
      simp [sepChain, List.append_assoc]
    rw [hch, splitSep_through t0 hf (Or.inr he)]
    congr 1
    exact ih (fun x hx => h x (List.mem_cons_of_mem t hx)) t
      (h t (List.mem_cons_self t ts2)).1 (h t (List.mem_cons_self t ts2)).2

theorem splitSep_sepChain (ts : List (List Char))
    (h : ∀ t ∈ ts, SepFree t ∧ t.getLast? = some '\n') :
    splitSep (sepChain ts) = [] :: ts := by
  cases ts with
  | nil => exact splitSep_nil
  | cons t ts2 =>
    have hch : sepChain (t :: ts2) = SEPARATOR ++ (t ++ sepChain ts2) := by
      simp [sepChain, List.append_assoc]
    rw [hch, splitSep_sep_head]
    congr 1
    exact splitSep_chain_aux ts2
      (fun x hx => h x (List.mem_cons_of_mem t hx)) t
      (h t (List.mem_cons_self t ts2)).1 (h t (List.mem_cons_self t ts2)).2

theorem countSep_sepChain (ts : List (List Char))
    (h : ∀ t ∈ ts, SepFree t ∧ t.getLast? = some '\n') :
    countSep (sepChain ts) = ts.length := by
  have h1 := splitSep_length_eq (sepChain ts)
  rw [splitSep_sepChain ts h] at h1
  simpa using h1.symm

/-- The body chunks carried by one append write: every rendered tail gets
the `"\n"` of `"\n".join`, and the last one the trailing `"\n\n"` of the
write. -/
def bodyChunks : List (List Char) → List (List Char)
  | [] => []
  | [t] => [t ++ '\n' :: ['\n']]
  | t :: ts => (t ++ ['\n']) :: bodyChunks ts

theorem bodyChunks_length (tails : List (List Char)) :
    (bodyChunks tails).length = tails.length := by
  induction tails with
  | nil => rfl
  | cons t ts ih =>
    cases ts with
    | nil => rfl
    | cons t2 ts2 =>
      have h : bodyChunks (t :: t2 :: ts2) =
          (t ++ ['\n']) :: bodyChunks (t2 :: ts2) := rfl
      rw [h, List.length_cons, ih]
      rfl

theorem joinNl_sepChain (T : List Char) (tails : List (List Char)) :
    joinNl ((T :: tails).map (fun t => SEPARATOR ++ t)) ++ '\n' :: ['\n'] =
      sepChain (bodyChunks (T :: tails)) := by
  induction tails generalizing T with
  | nil => simp [joinNl, bodyChunks, sepChain]
  | cons T2 ts ih =>
    rw [List.map_cons, List.map_cons, joinNl_cons_cons, ← List.map_cons]
    have hb : bodyChunks (T :: T2 :: ts) =
        (T ++ ['\n']) :: bodyChunks (T2 :: ts) := rfl
    rw [hb, sepChain, ← ih T2]
    simp [List.append_assoc]

theorem bodyChunks_cond (tails : List (List Char))
    (h : ∀ T ∈ tails, SepFree T ∧ T.getLast? = some '\n' ∧ '#' ∈ T) :
    ∀ u ∈ bodyChunks tails,
      SepFree u ∧ u.getLast? = some '\n' ∧ '#' ∈ u := by
  induction tails with
  | nil =>
    intro u hu
    cases hu
  | cons t ts ih =>
    obtain ⟨hf, he, hm⟩ := h t (List.mem_cons_self t ts)
    cases ts with
    | nil =>
      intro u hu
      have hu2 : u = (t ++ ['\n']) ++ ['\n'] := by
        have : u = t ++ '\n' :: ['\n'] := by
          rcases List.mem_singleton.mp hu with rfl
          rfl
        rw [this]
        simp
      rw [hu2]
      have hf1 : SepFree (t ++ ['\n']) := sepFree_append_nl t hf he
      have he1 : (t ++ ['\n']).getLast? = some '\n' := List.getLast?_concat _
      refine ⟨sepFree_append_nl _ hf1 he1, List.getLast?_concat _, ?_⟩
      exact List.mem_append_left _ (List.mem_append_left _ hm)
    | cons t2 ts2 =>
      intro u hu
      have hb : bodyChunks (t :: t2 :: ts2) =
          (t ++ ['\n']) :: bodyChunks (t2 :: ts2) := rfl
      rw [hb] at hu
      rcases List.mem_cons.mp hu with rfl | hu2
      · exact ⟨sepFree_append_nl t hf he, List.getLast?_concat _,
          List.mem_append_left _ hm⟩
      · exact ih (fun x hx => h x (List.mem_cons_of_mem t hx)) u hu2

theorem flatten_getLast_nl (parts : List (List Char)) :
    ∀ (a : List Char), a.getLast? = some '\n' →
    (∀ p ∈ parts, p = [] ∨ p.getLast? = some '\n') →
    (a ++ parts.flatten).getLast? = some '\n' := by
  induction parts with
  | nil =>
    intro a ha _
    simpa using ha
  | cons p ps ih =>
    intro a ha hp
    have hstep : a ++ (p :: ps).flatten = (a ++ p) ++ ps.flatten := by
      simp [List.append_assoc]
    rw [hstep]
    have hap : (a ++ p).getLast? = some '\n' := by
      rcases hp p (List.mem_cons_self p ps) with rfl | hpe
      · simpa using ha
      · rcases eq_or_ne p [] with rfl | hne
        · simpa using ha
        · rw [List.getLast?_append_of_ne_nil a hne]
          exact hpe
    exact ih (a ++ p) hap (fun q hq => hp q (List.mem_cons_of_mem p hq))

theorem renderField_nl (ch : List Char → List Char)
    (kv : List Char × List Char) :
    renderField ch kv = [] ∨ (renderField ch kv).getLast? = some '\n' := by
  rw [renderField]
  by_cases h : kv.2 = []
  · rw [if_pos h]
    exact Or.inl rfl
  · rw [if_neg h]
    right
    simp only
    rw [List.getLast?_concat]

theorem renderTail_ends_nl (h2t ch : List Char → List Char) (it : Item)
    (u : List Char) : (renderTail h2t ch it u).getLast? = some '\n' := by
  rw [renderTail]
  apply flatten_getLast_nl
  · have hsplit :
        str "## [" ++ _clean_title h2t it.title ++ str "](" ++ u ++
          ([')', '\n'] : List Char) =
        (str "## [" ++ _clean_title h2t it.title ++ str "](" ++ u ++
          [')']) ++ ['\n'] := by
      simp
    rw [hsplit, List.getLast?_concat]
  · intro p hp
    obtain ⟨kv, _, rfl⟩ := List.mem_map.mp hp
    exact renderField_nl ch kv

theorem renderTail_mem_hash (h2t ch : List Char → List Char) (it : Item)
    (u : List Char) : '#' ∈ renderTail h2t ch it u := by
  rw [renderTail]
  refine List.mem_append_left _ ?_
  refine List.mem_append_left _ ?_
  refine List.mem_append_left _ ?_
  refine List.mem_append_left _ ?_
  exact List.mem_cons_self '#' _

theorem sepFree_of_not_contains (t : List Char)
    (h : containsSubstring SEPARATOR t = false) : SepFree t := by
  induction t with
  | nil =>
    intro s hs
    rw [List.suffix_nil.mp hs]
    exact h
  | cons c rest ih =>
    intro s hs
    rw [containsSubstring] at h
    simp only [Bool.or_eq_false_iff] at h
    rcases List.suffix_cons_iff.mp hs with rfl | hs2
    · exact h.1
    · exact ih h.2 s hs2

theorem mem_dropWhile_of_neg (p : Char → Bool) (l : List Char) (c : Char)
    (hc : c ∈ l) (hp : p c = false) : c ∈ l.dropWhile p := by
  induction l with
  | nil => cases hc
  | cons a rest ih =>
    by_cases ha : p a = true
    · rw [List.dropWhile_cons_of_pos ha]
      rcases List.mem_cons.mp hc with rfl | hc2
      · rw [hp] at ha
        cases ha
      · exact ih hc2
    · rw [List.dropWhile_cons_of_neg ha]
      exact hc

theorem pyStrip_ne_nil_of_mem (t : List Char) (c : Char) (hc : c ∈ t)
    (hs : pyIsSpace c = false) : pyStrip t ≠ [] := by
  intro hnil
  rw [pyStrip] at hnil
  have h1 : c ∈ t.dropWhile pyIsSpace := mem_dropWhile_of_neg _ _ _ hc hs
  have h2 : c ∈ (t.dropWhile pyIsSpace).reverse := List.mem_reverse.mpr h1
  have h3 : c ∈ (t.dropWhile pyIsSpace).reverse.dropWhile pyIsSpace :=
    mem_dropWhile_of_neg _ _ _ h2 hs
  have h4 : (t.dropWhile pyIsSpace).reverse.dropWhile pyIsSpace = [] := by
    have := congrArg List.reverse hnil
    simpa using this
  rw [h4] at h3
  cases h3

/-- A raw log built from nothing by `_append_to_log` calls whose rendered
item blocks never contain the separator token; the number tracks the sum
of the reported `added` counts. -/
inductive RawBuilt (h2t ch : List Char → List Char) :
    Option (List Char) → Nat → Prop
  | nil : RawBuilt h2t ch none 0
  | step (file : Option (List Char)) (N : Nat) (items : List Item)
      (hprev : RawBuilt h2t ch file N)
      (hclean : ∀ it ∈ items, ∀ u, truthyUrl it = some u →
        SepFree (renderTail h2t ch it u)) :
      RawBuilt h2t ch (_append_to_log h2t ch file items).file
        (N + (_append_to_log h2t ch file items).added)

set_option maxHeartbeats 1600000 in
theorem rawBuilt_shape (h2t ch : List Char → List Char)
    (file : Option (List Char)) (N : Nat)
    (hb : RawBuilt h2t ch file N) :
    (file = none ∧ N = 0) ∨
    ∃ ts, file = some (sepChain ts) ∧ ts.length = N ∧ 1 ≤ N ∧
      ∀ t ∈ ts, SepFree t ∧ t.getLast? = some '\n' ∧ '#' ∈ t := by
  induction hb with
  | nil => exact Or.inl ⟨rfl, rfl⟩
  | step f n its hprev hclean ih =>
    rcases ih with ⟨hf, hn⟩ | ⟨ts0, hf, hlen, hone, hcond⟩
    · subst hf
      subst hn
      obtain ⟨adds, k, heq, hq, hcov⟩ := appendGo_spec h2t ch its [] [] 0 0
      have htails : ∀ T ∈ adds.map (fun q => renderTail h2t ch q.1 q.2),
          SepFree T ∧ T.getLast? = some '\n' ∧ '#' ∈ T := by
        intro T hT
        obtain ⟨q, hqin, rfl⟩ := List.mem_map.mp hT
        obtain ⟨hq1, hq2⟩ := hq q hqin
        exact ⟨hclean q.1 hq2 q.2 hq1, renderTail_ends_nl h2t ch q.1 q.2,
          renderTail_mem_hash h2t ch q.1 q.2⟩
      by_cases hA : adds = []
      · subst hA
        have hres : _append_to_log h2t ch none its = ⟨none, 0, 0 + k⟩ := by
          rw [append_to_log_eq]
          simp only
          rw [heq]
          simp
        rw [hres]
        exact Or.inl ⟨rfl, rfl⟩
      · obtain ⟨a0, as, rfl⟩ := List.exists_cons_of_ne_nil hA
        have hres : _append_to_log h2t ch none its =
            ⟨some (sepChain (bodyChunks
              ((a0 :: as).map (fun q => renderTail h2t ch q.1 q.2)))),
             0 + (a0 :: as).length, 0 + k⟩ := by
          rw [append_to_log_eq]
          simp only
          rw [heq]
          rw [if_neg (by simp)]
          have hmm : (a0 :: as).map
              (fun q => SEPARATOR ++ renderTail h2t ch q.1 q.2) =
              ((a0 :: as).map (fun q => renderTail h2t ch q.1 q.2)).map
                (fun t => SEPARATOR ++ t) := by
            rw [List.map_map]
            rfl
          have hj : ([] : List Char) ++
              joinNl ((a0 :: as).map
                (fun q => SEPARATOR ++ renderTail h2t ch q.1 q.2)) ++
              '\n' :: ['\n'] =
              sepChain (bodyChunks
                ((a0 :: as).map (fun q => renderTail h2t ch q.1 q.2))) := by
            rw [List.nil_append, hmm, List.map_cons]
            exact joinNl_sepChain _ _
          simp only [List.nil_append] at hj ⊢
          rw [hj]
        rw [hres]
        right
        refine ⟨bodyChunks
          ((a0 :: as).map (fun q => renderTail h2t ch q.1 q.2)),
          rfl, ?_, ?_, ?_⟩
        · rw [bodyChunks_length, List.length_map]
          simp
        · simp
        · exact bodyChunks_cond _ htails
    · subst hf
      obtain ⟨adds, k, heq, hq, hcov⟩ := appendGo_spec h2t ch its
        (_extract_urls_from_markdown (sepChain ts0)) [] 0 0
      have htails : ∀ T ∈ adds.map (fun q => renderTail h2t ch q.1 q.2),
          SepFree T ∧ T.getLast? = some '\n' ∧ '#' ∈ T := by
        intro T hT
        obtain ⟨q, hqin, rfl⟩ := List.mem_map.mp hT
        obtain ⟨hq1, hq2⟩ := hq q hqin
        exact ⟨hclean q.1 hq2 q.2 hq1, renderTail_ends_nl h2t ch q.1 q.2,
          renderTail_mem_hash h2t ch q.1 q.2⟩
      by_cases hA : adds = []
      · subst hA
        have hres : _append_to_log h2t ch (some (sepChain ts0)) its =
            ⟨some (sepChain ts0), 0, 0 + k⟩ := by
          rw [append_to_log_eq]
          simp only
          rw [heq]
          simp
        rw [hres]
        right
        refine ⟨ts0, rfl, by simpa using hlen, by omega, hcond⟩
      · obtain ⟨a0, as, rfl⟩ := List.exists_cons_of_ne_nil hA
        have hres : _append_to_log h2t ch (some (sepChain ts0)) its =
            ⟨some (sepChain (ts0 ++ bodyChunks
              ((a0 :: as).map (fun q => renderTail h2t ch q.1 q.2)))),
             0 + (a0 :: as).length, 0 + k⟩ := by
          rw [append_to_log_eq]
          simp only
          rw [heq]
          rw [if_neg (by simp)]
          have hmm : (a0 :: as).map
              (fun q => SEPARATOR ++ renderTail h2t ch q.1 q.2) =
              ((a0 :: as).map (fun q => renderTail h2t ch q.1 q.2)).map
                (fun t => SEPARATOR ++ t) := by
            rw [List.map_map]
            rfl
          have hj : joinNl ((a0 :: as).map
                (fun q => SEPARATOR ++ renderTail h2t ch q.1 q.2)) ++
              '\n' :: ['\n'] =
              sepChain (bodyChunks
                ((a0 :: as).map (fun q => renderTail h2t ch q.1 q.2))) := by
            rw [hmm, List.map_cons]
            exact joinNl_sepChain _ _
          simp only [List.nil_append]
          rw [sepChain_append, List.append_assoc, hj]
        rw [hres]
        right
        refine ⟨ts0 ++ bodyChunks
          ((a0 :: as).map (fun q => renderTail h2t ch q.1 q.2)),
          rfl, ?_, ?_, ?_⟩
        · rw [List.length_append, bodyChunks_length, List.length_map, hlen]
          simp
        · simp only
          omega
        · intro t ht
          rcases List.mem_append.mp ht with ht0 | htb
          · exact hcond t ht0
          · exact bodyChunks_cond _ htails t htb

/-- C9: for a raw file in which `_append_to_log` calls have stored
`N ≥ 1` item blocks (each rendered block being separator-free, as every
really rendered block is), `get_raw_item_count` returns `N + 1` — one
more than the number of non-empty blocks obtained by splitting the file
on the separator, i.e. one more than the number of items
`read_raw_items_batch` can ever return — because every appended block
begins with the separator token. -/
theorem get_raw_item_count_offset_by_one (h2t ch : List Char → List Char)
    (file : Option (List Char)) (N : Nat)
    (hb : RawBuilt h2t ch file N) (hN : 1 ≤ N) :
    get_raw_item_count file = N + 1 ∧
    (rawItemBlocks (read_raw_log file)).length = N := by
  rcases rawBuilt_shape h2t ch file N hb with ⟨_, hn0⟩ | ⟨ts, hf, hlen, _, hcond⟩
  · omega
  · subst hf
    obtain ⟨t0, ts2, rfl⟩ : ∃ t0 ts2, ts = t0 :: ts2 := by
      cases ts with
      | nil =>
        rw [List.length_nil] at hlen
        omega
      | cons a b => exact ⟨a, b, rfl⟩
    have hcontent : sepChain (t0 :: ts2) =
        '\n' :: ('-' :: '-' :: '-' :: '\n' :: (t0 ++ sepChain ts2)) := by
      simp [sepChain, SEPARATOR]
    have hend : ∀ t ∈ t0 :: ts2, SepFree t ∧ t.getLast? = some '\n' :=
      fun t ht => ⟨(hcond t ht).1, (hcond t ht).2.1⟩
    have hS : splitSep (sepChain (t0 :: ts2)) = [] :: (t0 :: ts2) :=
      splitSep_sepChain _ hend
    have hcnt : countSep (sepChain (t0 :: ts2)) = N := by
      rw [countSep_sepChain _ hend]
      exact hlen
    have hne : ¬(sepChain (t0 :: ts2) = [] ∨
        sepChain (t0 :: ts2) = rawNotFoundToday) := by
      rw [hcontent]
      rintro (h | h)
      · cases h
      · have h2 := congrArg List.head? h
        have h3 : rawNotFoundToday.head? = some 'N' := by decide
        rw [h3] at h2
        simp at h2
    constructor
    · rw [get_raw_item_count]
      simp only [read_raw_log]
      rw [if_neg hne, hcnt]
    · show (rawItemBlocks (sepChain (t0 :: ts2))).length = N
      rw [rawItemBlocks, hS]
      rw [List.filter_cons]
      rw [if_neg (by decide)]
      have hfil : (t0 :: ts2).filter (fun i => decide (pyStrip i ≠ [])) =
          t0 :: ts2 := by
        apply List.filter_eq_self.mpr
        intro t ht
        apply decide_eq_true
        exact pyStrip_ne_nil_of_mem t '#' (hcond t ht).2.2 (by decide)
      rw [hfil]
      exact hlen

theorem get_raw_item_count_offset_by_one_witness :
    1 ≤ 0 + (_append_to_log id id none
        [⟨some (str "http://x.com/a"), some (str "T"), []⟩]).added ∧
    (get_raw_item_count (_append_to_log id id none
        [⟨some (str "http://x.com/a"), some (str "T"), []⟩]).file =
      (0 + (_append_to_log id id none
        [⟨some (str "http://x.com/a"), some (str "T"), []⟩]).added) + 1 ∧
     (rawItemBlocks (read_raw_log (_append_to_log id id none
        [⟨some (str "http://x.com/a"), some (str "T"), []⟩]).file)).length =
      0 + (_append_to_log id id none
        [⟨some (str "http://x.com/a"), some (str "T"), []⟩]).added) := by
  have hclean : ∀ it ∈
      [(⟨some (str "http://x.com/a"), some (str "T"), []⟩ : Item)],
      ∀ u, truthyUrl it = some u → SepFree (renderTail id id it u) := by
    intro it hit u hu
    rw [List.mem_singleton] at hit
    subst hit
    rw [show truthyUrl
        (⟨some (str "http://x.com/a"), some (str "T"), []⟩ : Item) =
        some (str "http://x.com/a") from by decide] at hu
    have hu2 : u = str "http://x.com/a" := (Option.some.inj hu).symm
    subst hu2
    exact sepFree_of_not_contains _ (by decide)
  refine ⟨by decide, ?_⟩
  exact get_raw_item_count_offset_by_one id id _ _
    (RawBuilt.step none 0 _ RawBuilt.nil hclean) (by decide)
